import Mathlib

/-!
# Routing conditions and the GFW rule list of v2ray-core

A shallow embedding of `app/router/condition.go` and `tools/gfwlist/gfwlist.go`.

Conventions of the embedding.

* A Go `string` (and a `[]byte`) is the list of its bytes, each byte a natural number.
  `len(s)` is `s.length`; `lit "abc"` writes an ASCII literal.
* A Go run that can stop with a run-time fault (slice or index out of range) returns an
  `Option` or an `Outcome`; `none` / `Outcome.fault` is the fault.
* Functions of the Go standard library (`strings`, `bufio`, `net`) are transcribed from
  their Go definitions.  The regular-expression engine (`regexp.MatchString`) is a
  parameter `re pattern subject` of every definition that reaches it.
* A method that changes its receiver returns the receiver after the call next to its
  result.  A value of the interface `Condition` is a function from the context and the
  state of the matchers to a boolean and the state after the call.
-/

namespace V2Ray

/-- A Go string: its bytes. -/
abbrev GoString := List Nat

/-- An ASCII literal as a Go string. -/
def lit (s : String) : GoString := s.toList.map Char.toNat

/-! ## Package `strings` -/

/-- Go `strings.HasPrefix`: `len(s) >= len(prefix) && s[:len(prefix)] == prefix`. -/
def HasPrefix (s pre : GoString) : Bool :=
  decide (pre.length ≤ s.length) && (s.take pre.length == pre)

/-- Go `strings.HasSuffix`: `len(s) >= len(suffix) && s[len(s)-len(suffix):] == suffix`. -/
def HasSuffix (s suf : GoString) : Bool :=
  decide (suf.length ≤ s.length) && (s.drop (s.length - suf.length) == suf)

/-- Go `strings.Contains`: `substr` occurs in `s` at some offset. -/
def Contains : GoString → GoString → Bool
  | [], sub => HasPrefix [] sub
  | c :: s, sub => HasPrefix (c :: s) sub || Contains s sub

/-- Go `s[i]` for an `int` index: `none` is the run-time fault "index out of range". -/
def byteAt (s : GoString) (i : Int) : Option Nat :=
  if 0 ≤ i ∧ i < (s.length : Int) then s.get? i.toNat else none

/-- Go `s[lo:hi]` for `int` bounds: `none` is the fault "slice bounds out of range". -/
def slice (s : GoString) (lo hi : Int) : Option GoString :=
  if 0 ≤ lo ∧ lo ≤ hi ∧ hi ≤ (s.length : Int) then
    some ((s.take hi.toNat).drop lo.toNat)
  else none

/-- Go `s[lo:]`, that is `s[lo:len(s)]`. -/
def sliceFrom (s : GoString) (lo : Int) : Option GoString :=
  slice s lo (s.length : Int)

/-- Go `strings.Split(s, sep)` for a separator of one byte `c`: the pieces between the
occurrences of `c`, one more piece than there are occurrences. -/
def Split (c : Nat) : GoString → List GoString
  | [] => [[]]
  | x :: xs =>
    if x = c then [] :: Split c xs
    else
      match Split c xs with
      | [] => [[x]]
      | l :: ls => (x :: l) :: ls

/-! ## Addresses and the routing context -/

/-- Modelled from the spec: the address of `common/net`, a tagged variant over IPv4
(4 bytes), IPv6 (16 bytes) and Domain (a string). -/
inductive Address where
  | ipv4 (ip : List Nat) (len : ip.length = 4)
  | ipv6 (ip : List Nat) (len : ip.length = 16)
  | domain (d : GoString)
deriving DecidableEq

/-- The address families of `common/net`. -/
inductive AddressFamily where
  | IPv4
  | IPv6
  | Domain
deriving DecidableEq

/-- Modelled from the spec: `Address.Family()`. -/
def Address.Family : Address → AddressFamily
  | .ipv4 _ _ => .IPv4
  | .ipv6 _ _ => .IPv6
  | .domain _ => .Domain

def AddressFamily.IsIPv4 (f : AddressFamily) : Bool := f == .IPv4

def AddressFamily.IsIPv6 (f : AddressFamily) : Bool := f == .IPv6

def AddressFamily.IsDomain (f : AddressFamily) : Bool := f == .Domain

/-- Modelled from the spec: `Address.IP()`, the bytes of an IP address (accessor valid
only for the IP variants; the empty slice otherwise). -/
def Address.IP : Address → List Nat
  | .ipv4 ip _ => ip
  | .ipv6 ip _ => ip
  | .domain _ => []

/-- Modelled from the spec: `Address.Domain()`, the string of a domain address (accessor
valid only for the Domain variant). -/
def Address.Domain : Address → GoString
  | .domain d => d
  | _ => []

/-- The transport kinds. -/
inductive Network where
  | Unknown
  | TCP
  | UDP
deriving DecidableEq

/-- Modelled from the spec: a destination is (Address, Port, Network). -/
structure Destination where
  Address : Address
  Port : Nat
  Network : Network
deriving DecidableEq

/-- Modelled from the spec: the authenticated user; only the email is read. -/
structure User where
  Email : GoString
deriving DecidableEq

/-- Modelled from the spec: the routing context, every field independently optional. -/
structure Context where
  target : Option Destination
  source : Option Destination
  resolvedIPs : Option (List Address)
  inboundTag : Option GoString
  user : Option User
deriving DecidableEq

/-- The context that carries nothing. -/
def Context.empty : Context := ⟨none, none, none, none, none⟩

def TargetFromContext (ctx : Context) : Option Destination := ctx.target

def SourceFromContext (ctx : Context) : Option Destination := ctx.source

def ResolvedIPsFromContext (ctx : Context) : Option (List Address) := ctx.resolvedIPs

/-- A context whose only field is a target with the domain `d`. -/
def domainTarget (d : GoString) : Context :=
  { Context.empty with target := some ⟨.domain d, 443, .TCP⟩ }

/-- A context whose only field is a target with the domain `d` and the port `port`. -/
def domainPortTarget (d : GoString) (port : Nat) : Context :=
  { Context.empty with target := some ⟨.domain d, port, .TCP⟩ }

/-- A context with the target domain `d` and the resolved IPs `ips`. -/
def resolvedTarget (d : GoString) (ips : List Address) : Context :=
  { domainTarget d with resolvedIPs := some ips }

/-! ## `SubDomainMatcher` -/

/-- `SubDomainMatcher.Apply` (condition.go 120-134).  `none` is an index fault. -/
def SubDomainMatcher.Apply (m : GoString) (ctx : Context) : Option Bool :=
  match TargetFromContext ctx with
  | none => some false
  | some dest =>
    if !dest.Address.Family.IsDomain then some false
    else
      let domain := dest.Address.Domain
      let pattern := m
      if !HasSuffix domain pattern then some false
      else if domain.length = pattern.length then some true
      else
        match byteAt domain ((domain.length : Int) - (pattern.length : Int) - 1) with
        | none => none
        | some b => some (b == 46)

/-! ## Package `net`: `SplitHostPort` -/

/-- Index of the first byte `c` of `s` (`bytealg.IndexByteString`), `none` for -1. -/
def indexByte (c : Nat) : GoString → Option Nat
  | [] => none
  | x :: xs => if x = c then some 0 else (indexByte c xs).map (· + 1)

/-- Index of the last byte `c` of `s` (`last` of package `net`), `none` for -1. -/
def lastIndexByte (c : Nat) : GoString → Option Nat
  | [] => none
  | x :: xs =>
    match lastIndexByte c xs with
    | some i => some (i + 1)
    | none => if x = c then some 0 else none

/-- Go `net.SplitHostPort`: `some (host, port)`, or `none` when it returns an error
(the host and the port are then the empty string). -/
def SplitHostPort (hostport : GoString) : Option (GoString × GoString) :=
  match lastIndexByte 58 hostport with
  | none => none                                   -- missing port in address
  | some i =>
    if hostport.head? = some 91 then
      match indexByte 93 hostport with
      | none => none                               -- missing ']' in address
      | some e =>
        if e + 1 = hostport.length then none       -- missing port in address
        else if e + 1 = i then
          if (indexByte 91 (hostport.drop 1)).isSome then none        -- unexpected '['
          else if (indexByte 93 (hostport.drop (e + 1))).isSome then none  -- unexpected ']'
          else some ((hostport.take e).drop 1, hostport.drop (i + 1))
        else none                                  -- too many colons / missing port
    else
      let host := hostport.take i
      if (indexByte 58 host).isSome then none      -- too many colons in address
      else if (indexByte 91 hostport).isSome then none
      else if (indexByte 93 hostport).isSome then none
      else some (host, hostport.drop (i + 1))

/-! ## The GFW rule list (`tools/gfwlist/gfwlist.go`) -/

/-- The rules: `hostWildcardRule`, `urlWildcardRule`, `regexRule` and `whiteListRule`. -/
inductive gfwListRule where
  | hostWildcardRule (pattern : GoString)
  | urlWildcardRule (pattern : GoString) (prefixMatch : Bool)
  | regexRule (pattern : GoString)
  | whiteListRule (r : gfwListRule)
deriving DecidableEq

/-- The `match` method of the four rule types (gfwlist.go 18-55); `re pattern domain` is
`regexp.MatchString`, false when the pattern does not compile. -/
def gfwListRule.matchDomain (re : GoString → GoString → Bool) : gfwListRule → GoString → Bool
  | .hostWildcardRule pattern, domain => if Contains domain pattern then true else false
  | .urlWildcardRule pattern prefixMatch, domain =>
    if prefixMatch then HasPrefix domain pattern else Contains domain pattern
  | .regexRule pattern, domain => re pattern domain
  | .whiteListRule r, domain => r.matchDomain re domain

/-- The type assertion `rule.(*whiteListRule)`. -/
def gfwListRule.isWhiteList : gfwListRule → Bool
  | .whiteListRule _ => true
  | _ => false

/-- A Go `map[string]gfwListRule`: an association list without repeated keys. -/
abbrev RuleMap := List (GoString × gfwListRule)

/-- Map read `m[k]`. -/
def mapGet (m : RuleMap) (k : GoString) : Option gfwListRule := List.lookup k m

/-- Map write `m[k] = v`. -/
def mapSet (m : RuleMap) (k : GoString) (v : gfwListRule) : RuleMap :=
  (k, v) :: m.filter (fun e => e.1 != k)

structure GFWList where
  ruleMap : RuleMap
  ruleList : List gfwListRule
deriving DecidableEq

/-- The query domain of `FastMatchDomain` after lines 67-71: the host of `host:port` when
the argument contains ':', the empty string when `SplitHostPort` reports an error. -/
def stripPort (domain : GoString) : GoString :=
  if Contains domain (lit ":") then
    match SplitHostPort domain with
    | some (host, _) => host
    | none => []
  else domain

/-- The value of `rootDomain` that lines 75-81 of `FastMatchDomain` derive from the
(port-stripped) `domain`. -/
def labelRoot (domain : GoString) : GoString :=
  let ss := Split 46 domain
  if ss.length > 2 then
    let rootDomain := ss.getD (ss.length - 2) [] ++ lit "." ++ ss.getD (ss.length - 1) []
    if (ss.getD (ss.length - 2) []).length < 4 && decide (ss.length ≥ 3) then
      ss.getD (ss.length - 3) [] ++ lit "." ++ rootDomain
    else rootDomain
  else domain

/-- The root domain that `FastMatchDomain` derives for a query: strip the port, then the
label rule. -/
def rootDomain (domain : GoString) : GoString := labelRoot (stripPort domain)

/-- `GFWList.FastMatchDomain` (gfwlist.go 66-94). -/
def FastMatchDomain (re : GoString → GoString → Bool) (gfw : GFWList) (domain : GoString) :
    Bool × Bool :=
  let domain := stripPort domain
  let found : Option gfwListRule :=
    match mapGet gfw.ruleMap domain with
    | some rule => some rule
    | none =>
      let rootDomain := labelRoot domain
      if rootDomain ≠ domain then mapGet gfw.ruleMap rootDomain else none
  match found with
  | some rule =>
    let matched := rule.matchDomain re domain
    if rule.isWhiteList then (!matched, true) else (matched, true)
  | none => (false, false)

/-- The loop of `IsBlockedByGFW` over `gfw.ruleList` (gfwlist.go 103-112). -/
def slowMatch (re : GoString → GoString → Bool) : List gfwListRule → GoString → Bool
  | [], _ => false
  | rule :: rest, domain =>
    if rule.matchDomain re domain then
      if rule.isWhiteList then false else true
    else slowMatch re rest domain

/-- `GFWList.IsBlockedByGFW` (gfwlist.go 96-113). -/
def IsBlockedByGFW (re : GoString → GoString → Bool) (gfw : GFWList) (domain : GoString) :
    Bool :=
  let (fastMatchResult, exist) := FastMatchDomain re gfw domain
  if exist then fastMatchResult
  else slowMatch re gfw.ruleList domain

/-! ## `strings.TrimSpace` and `bufio.Reader.ReadLine` -/

/-- The UTF-8 encodings of the runes for which `unicode.IsSpace` holds: U+0009..U+000D,
U+0020, U+0085, U+00A0, U+1680, U+2000..U+200A, U+2028, U+2029, U+202F, U+205F, U+3000. -/
def spaceRunes : List GoString :=
  [[0x09], [0x0A], [0x0B], [0x0C], [0x0D], [0x20], [0xC2, 0x85], [0xC2, 0xA0],
   [0xE1, 0x9A, 0x80],
   [0xE2, 0x80, 0x80], [0xE2, 0x80, 0x81], [0xE2, 0x80, 0x82], [0xE2, 0x80, 0x83],
   [0xE2, 0x80, 0x84], [0xE2, 0x80, 0x85], [0xE2, 0x80, 0x86], [0xE2, 0x80, 0x87],
   [0xE2, 0x80, 0x88], [0xE2, 0x80, 0x89], [0xE2, 0x80, 0x8A],
   [0xE2, 0x80, 0xA8], [0xE2, 0x80, 0xA9], [0xE2, 0x80, 0xAF], [0xE2, 0x81, 0x9F],
   [0xE3, 0x80, 0x80]]

/-- Number of bytes of the white-space rune `s` begins with, 0 when it begins with none. -/
def leadingSpace (s : GoString) : Nat :=
  match spaceRunes.find? (fun e => HasPrefix s e) with
  | some e => e.length
  | none => 0

/-- Number of bytes of the white-space rune `s` ends with, 0 when it ends with none. -/
def trailingSpace (s : GoString) : Nat :=
  match spaceRunes.find? (fun e => HasSuffix s e) with
  | some e => e.length
  | none => 0

/-- `strings.TrimLeftFunc(s, unicode.IsSpace)`, at most `n` runes removed. -/
def trimLeft : Nat → GoString → GoString
  | 0, s => s
  | n + 1, s => if leadingSpace s = 0 then s else trimLeft n (s.drop (leadingSpace s))

/-- `strings.TrimRightFunc(s, unicode.IsSpace)`, at most `n` runes removed. -/
def trimRight : Nat → GoString → GoString
  | 0, s => s
  | n + 1, s =>
    if trailingSpace s = 0 then s else trimRight n (s.take (s.length - trailingSpace s))

/-- Go `strings.TrimSpace`: all leading and trailing white space removed. -/
def TrimSpace (s : GoString) : GoString :=
  let t := trimLeft s.length s
  trimRight t.length t

/-- The buffer size of `bufio.NewReader`. -/
def defaultBufSize : Nat := 4096

/-- One call of `bufio.Reader.ReadLine` on a reader whose unread input is `input`:
`none` at end of input (`err != nil`), else the line and the input left.  A line is cut
at the buffer size when no `\n` is found in the buffer (`isPrefix`, which `Parse`
ignores); a `\r` that ends a full buffer is put back. -/
def ReadLine (input : GoString) : Option (GoString × GoString) :=
  if input = [] then none
  else
    match indexByte 10 (input.take defaultBufSize) with
    | some i =>
      let line := input.take i
      let line := if line.getLast? = some 13 then line.dropLast else line
      some (line, input.drop (i + 1))
    | none =>
      if defaultBufSize ≤ input.length then
        if (input.take defaultBufSize).getLast? = some 13 then
          some (input.take (defaultBufSize - 1), input.drop (defaultBufSize - 1))
        else some (input.take defaultBufSize, input.drop defaultBufSize)
      else some (input, [])

/-! ## `Parse` -/

/-- The result of a run: a value, a run-time fault (Go panic), or fuel exhausted (an
artefact of the embedding, shown below never to occur). -/
inductive Outcome (α : Type) where
  | ok (a : α)
  | fault
  | fuel
deriving DecidableEq

/-- Lines 137-158 of the loop of `Parse`: the rule built from `str` (the trimmed line,
its `@@` already stripped), the final value of `str` and the flag `fastMatch`; `none`
when a slice expression is out of range. -/
def classify (str : GoString) : Option (gfwListRule × GoString × Bool) :=
  if HasPrefix str (lit "/") && HasSuffix str (lit "/") then
    (slice str 1 ((str.length : Int) - 1)).map
      (fun s => (gfwListRule.regexRule s, s, false))
  else if HasPrefix str (lit "||") then
    (sliceFrom str 2).map (fun s => (gfwListRule.hostWildcardRule s, s, true))
  else if HasPrefix str (lit "|") then
    (sliceFrom str 1).map (fun s => (gfwListRule.urlWildcardRule s true, str, false))
  else if !Contains str (lit "/") then
    if HasPrefix str (lit ".") then
      (sliceFrom str 1).map (fun s => (gfwListRule.hostWildcardRule s, s, true))
    else some (gfwListRule.hostWildcardRule str, str, true)
  else some (gfwListRule.urlWildcardRule str false, str, false)

/-- Lines 125-161 of the loop of `Parse`, for one line: `some none` for a comment line
(`continue`), else the rule built, the final value of `str` and the flag `fastMatch`;
`none` when a slice expression is out of range. -/
def buildRule (line : GoString) : Option (Option (gfwListRule × GoString × Bool)) :=
  let str := TrimSpace line
  if HasPrefix str (lit "!") || str.length == 0 || HasPrefix str (lit "[") then some none
  else
    let stripped : Option (GoString × Bool) :=
      if HasPrefix str (lit "@@") then (sliceFrom str 2).map (fun s => (s, true))
      else some (str, false)
    match stripped with
    | none => none
    | some (str, isWhileListRule) =>
      match classify str with
      | none => none
      | some (rule, str, fastMatch) =>
        let rule := if isWhileListRule then gfwListRule.whiteListRule rule else rule
        some (some (rule, str, fastMatch))

/-- Lines 162-166 of the loop of `Parse`: the rule goes to the map under `str` when
`fastMatch`, else to the end of the list. -/
def storeRule (gfw : GFWList) (b : gfwListRule × GoString × Bool) : GFWList :=
  if b.2.2 then { gfw with ruleMap := mapSet gfw.ruleMap b.2.1 b.1 }
  else { gfw with ruleList := gfw.ruleList ++ [b.1] }

/-- The body of the loop of `Parse` for one line (gfwlist.go 125-166): the rule set
after the line, `none` when a slice expression is out of range. -/
def parseLine (line : GoString) (gfw : GFWList) : Option GFWList :=
  match buildRule line with
  | none => none
  | some none => some gfw
  | some (some b) => some (storeRule gfw b)

/-- The loop of `Parse` (gfwlist.go 120-167) on the unread input, with `n` iterations
of fuel. -/
def parseLoop : Nat → GoString → GFWList → Outcome GFWList
  | 0, _, _ => .fuel
  | n + 1, input, gfw =>
    match ReadLine input with
    | none => .ok gfw
    | some (line, rest) =>
      match parseLine line gfw with
      | none => .fault
      | some gfw => parseLoop n rest gfw

/-- `Parse` (gfwlist.go 115-169).  The returned error is always nil, so the outcome
carries the rule set only. -/
def Parse (rules : GoString) : Outcome GFWList :=
  parseLoop (rules.length + 1) rules ⟨[], []⟩

/-! ## Package `net`: `IPNet` -/

/-- The bytes of `net.CIDRMask` after its checks: `l` bytes with the first `n` bits set. -/
def maskBytes : Nat → Nat → List Nat
  | 0, _ => []
  | l + 1, n =>
    if n ≥ 8 then 0xff :: maskBytes l (n - 8)
    else (0xff - (0xff >>> n)) :: maskBytes l 0

/-- Go `net.CIDRMask(ones, bits)`; the nil mask is the empty list. -/
def CIDRMask (ones bits : Nat) : List Nat :=
  if bits ≠ 8 * 4 ∧ bits ≠ 8 * 16 then []
  else if ones > bits then []
  else maskBytes (bits / 8) ones

/-- Go `net.IP.To4`: the 4-byte form of an IPv4 address, `none` for nil. -/
def To4 (ip : List Nat) : Option (List Nat) :=
  if ip.length = 4 then some ip
  else if ip.length = 16 ∧ (ip.take 10).all (· == 0) ∧ ip.getD 10 0 = 0xff ∧
      ip.getD 11 0 = 0xff then some ((ip.take 16).drop 12)
  else none

/-- Go `net.IPNet`. -/
structure IPNet where
  IP : List Nat
  Mask : List Nat
deriving DecidableEq

/-- Go `networkNumberAndMask` of package `net`; `(nil, nil)` is `([], [])`. -/
def networkNumberAndMask (n : IPNet) : List Nat × List Nat :=
  let ip? : Option (List Nat) :=
    match To4 n.IP with
    | some ip => some ip
    | none => if n.IP.length ≠ 16 then none else some n.IP
  match ip? with
  | none => ([], [])
  | some ip =>
    let m := n.Mask
    if m.length = 4 then
      if ip.length ≠ 4 then ([], []) else (ip, m)
    else if m.length = 16 then
      if ip.length = 4 then (ip, m.drop 12) else (ip, m)
    else ([], [])

/-- Go `(*net.IPNet).Contains`. -/
def IPNet.Contains (n : IPNet) (ip : List Nat) : Bool :=
  let (nn, m) := networkNumberAndMask n
  let ip := match To4 ip with
    | some x => x
    | none => ip
  let l := ip.length
  if l ≠ nn.length then false
  else (List.range l).all (fun i => nn.getD i 0 &&& m.getD i 0 == ip.getD i 0 &&& m.getD i 0)

/-! ## `CIDRMatcher` -/

structure CIDRMatcher where
  cidr : IPNet
  onSource : Bool
deriving DecidableEq

/-- A Go `error` value: its message. -/
abbrev GoError := GoString

/-- `NewCIDRMatcher` (condition.go 179-188): the returned pointer (`none` for nil) and the
returned error (`none` for nil). -/
def NewCIDRMatcher (ip : List Nat) (mask : Nat) (onSource : Bool) :
    Option CIDRMatcher × Option GoError :=
  let cidr : IPNet := { IP := ip, Mask := CIDRMask mask (ip.length * 8) }
  (some { cidr := cidr, onSource := onSource }, none)

/-- The loop of condition.go 193-198: the resolved IPs appended to `ips`, those that are
not IPv6 skipped. -/
def collectIPv6 (ips : List (List Nat)) : List Address → List (List Nat)
  | [] => ips
  | rip :: rest =>
    if !rip.Family.IsIPv6 then collectIPv6 ips rest
    else collectIPv6 (ips ++ [rip.IP]) rest

/-- The loop of condition.go 213-218. -/
def anyContains (cidr : IPNet) : List (List Nat) → Bool
  | [] => false
  | ip :: rest => if cidr.Contains ip then true else anyContains cidr rest

/-- `CIDRMatcher.Apply` (condition.go 190-219). -/
def CIDRMatcher.Apply (v : CIDRMatcher) (ctx : Context) : Bool :=
  let ips : List (List Nat) := []
  let ips :=
    match ResolvedIPsFromContext ctx with
    | some resolveIPs => collectIPv6 ips resolveIPs
    | none => ips
  let dest? := if v.onSource then SourceFromContext ctx else TargetFromContext ctx
  let ips :=
    match dest? with
    | some dest => if dest.Address.Family.IsIPv6 then ips ++ [dest.Address.IP] else ips
    | none => ips
  anyContains v.cidr ips

/-! ## `GfwMatcher` -/

/-- The matcher: the rule list and the cache, a Go `map[string]bool` kept as an
association list without repeated keys.  The mutex is not part of the state: one `Apply`
is one step. -/
structure GfwMatcher where
  GFWList : GFWList
  cache : List (GoString × Bool)
deriving DecidableEq

/-- `GfwMatcher.Apply` (condition.go 146-172): the result and the matcher after the call. -/
def GfwMatcher.Apply (re : GoString → GoString → Bool) (m : GfwMatcher) (ctx : Context) :
    Bool × GfwMatcher :=
  match TargetFromContext ctx with
  | none => (false, m)
  | some dest =>
    if !dest.Address.Family.IsDomain then (false, m)
    else
      let domain := dest.Address.Domain
      match List.lookup domain m.cache with          -- read under RLock
      | some result => (result, m)
      | none =>
        match List.lookup domain m.cache with        -- re-check under Lock
        | some result => (result, m)
        | none =>
          let result := IsBlockedByGFW re m.GFWList domain
          (result, { m with cache := (domain, result) :: m.cache.filter (fun e => e.1 != domain) })

/-- The matcher after a sequence of `Apply` calls, one per context, in order. -/
def GfwMatcher.run (re : GoString → GoString → Bool) (m : GfwMatcher) :
    List Context → GfwMatcher
  | [] => m
  | ctx :: rest => GfwMatcher.run re (GfwMatcher.Apply re m ctx).2 rest

/-! ## The other atomic matchers -/

def UserFromContext (ctx : Context) : Option User := ctx.user

def InboundTagFromContext (ctx : Context) : Option GoString := ctx.inboundTag

/-- `PlainDomainMatcher.Apply` (condition.go 75-86). -/
def PlainDomainMatcher.Apply (v : GoString) (ctx : Context) : Bool :=
  match TargetFromContext ctx with
  | none => false
  | some dest =>
    if !dest.Address.Family.IsDomain then false
    else
      let domain := dest.Address.Domain
      Contains domain v

/-- A compiled `*regexp.Regexp`, given by its method `MatchString`. -/
structure Regexp where
  MatchString : GoString → Bool

structure RegexpDomainMatcher where
  pattern : Regexp

/-- `RegexpDomainMatcher.Apply` (condition.go 102-112); `ToLower` is `strings.ToLower`,
a parameter. -/
def RegexpDomainMatcher.Apply (ToLower : GoString → GoString) (v : RegexpDomainMatcher)
    (ctx : Context) : Bool :=
  match TargetFromContext ctx with
  | none => false
  | some dest =>
    if !dest.Address.Family.IsDomain then false
    else
      let domain := dest.Address.Domain
      v.pattern.MatchString (ToLower domain)

/-- Modelled from the spec: the IP-net table of `common/net`, an immutable set of IPv4
CIDRs; the matcher uses its containment query only, which is a field here. -/
structure IPNetTable where
  Contains : List Nat → Bool

structure IPv4Matcher where
  ipv4net : IPNetTable
  onSource : Bool

/-- `NewIPv4Matcher` (condition.go 226-231). -/
def NewIPv4Matcher (ipnet : IPNetTable) (onSource : Bool) : IPv4Matcher :=
  { ipv4net := ipnet, onSource := onSource }

/-- The loop of condition.go 236-241: the resolved IPs appended to `ips`, those that are
not IPv4 skipped. -/
def collectIPv4 (ips : List (List Nat)) : List Address → List (List Nat)
  | [] => ips
  | rip :: rest =>
    if !rip.Family.IsIPv4 then collectIPv4 ips rest
    else collectIPv4 (ips ++ [rip.IP]) rest

/-- The loop of condition.go 256-261. -/
def anyInTable (t : IPNetTable) : List (List Nat) → Bool
  | [] => false
  | ip :: rest => if t.Contains ip then true else anyInTable t rest

/-- `IPv4Matcher.Apply` (condition.go 233-262). -/
def IPv4Matcher.Apply (v : IPv4Matcher) (ctx : Context) : Bool :=
  let ips : List (List Nat) := []
  let ips :=
    match ResolvedIPsFromContext ctx with
    | some resolveIPs => collectIPv4 ips resolveIPs
    | none => ips
  let dest? := if v.onSource then SourceFromContext ctx else TargetFromContext ctx
  let ips :=
    match dest? with
    | some dest => if dest.Address.Family.IsIPv4 then ips ++ [dest.Address.IP] else ips
    | none => ips
  anyInTable v.ipv4net ips

/-- Modelled from the spec: a port range is a pair (from, to); membership is inclusive at
both ends. -/
structure PortRange where
  From : Nat
  To : Nat
deriving DecidableEq

/-- Modelled from the spec: `PortRange.Contains`. -/
def PortRange.Contains (p : PortRange) (port : Nat) : Bool :=
  decide (p.From ≤ port) && decide (port ≤ p.To)

structure PortMatcher where
  port : PortRange
deriving DecidableEq

/-- `NewPortMatcher` (condition.go 268-272). -/
def NewPortMatcher (portRange : PortRange) : PortMatcher := { port := portRange }

/-- `PortMatcher.Apply` (condition.go 274-280). -/
def PortMatcher.Apply (v : PortMatcher) (ctx : Context) : Bool :=
  match TargetFromContext ctx with
  | none => false
  | some dest => v.port.Contains dest.Port

/-- Modelled from the spec: a network set is a finite set of network kinds with a
membership query. -/
structure NetworkList where
  Network : List Network
deriving DecidableEq

/-- Modelled from the spec: `NetworkList.HasNetwork`. -/
def NetworkList.HasNetwork (l : NetworkList) (n : V2Ray.Network) : Bool :=
  l.Network.contains n

structure NetworkMatcher where
  network : NetworkList
deriving DecidableEq

/-- `NewNetworkMatcher` (condition.go 286-290). -/
def NewNetworkMatcher (network : NetworkList) : NetworkMatcher := { network := network }

/-- `NetworkMatcher.Apply` (condition.go 292-298). -/
def NetworkMatcher.Apply (v : NetworkMatcher) (ctx : Context) : Bool :=
  match TargetFromContext ctx with
  | none => false
  | some dest => v.network.HasNetwork dest.Network

/-- The copy loops of `NewUserMatcher` and `NewInboundTagMatcher` (condition.go 306-310,
335-339): the strings appended to `acc`, the empty ones skipped. -/
def copyNonEmpty (acc : List GoString) : List GoString → List GoString
  | [] => acc
  | s :: rest =>
    if s.length > 0 then copyNonEmpty (acc ++ [s]) rest
    else copyNonEmpty acc rest

/-- The search loops of `UserMatcher.Apply` and `InboundTagMatcher.Apply` (condition.go
321-326, 351-356). -/
def anyEqual (x : GoString) : List GoString → Bool
  | [] => false
  | u :: rest => if u = x then true else anyEqual x rest

structure UserMatcher where
  user : List GoString
deriving DecidableEq

/-- `NewUserMatcher` (condition.go 304-314). -/
def NewUserMatcher (users : List GoString) : UserMatcher :=
  let usersCopy := copyNonEmpty [] users
  { user := usersCopy }

/-- `UserMatcher.Apply` (condition.go 316-327). -/
def UserMatcher.Apply (v : UserMatcher) (ctx : Context) : Bool :=
  match UserFromContext ctx with
  | none => false
  | some user => anyEqual user.Email v.user

structure InboundTagMatcher where
  tags : List GoString
deriving DecidableEq

/-- `NewInboundTagMatcher` (condition.go 333-343). -/
def NewInboundTagMatcher (tags : List GoString) : InboundTagMatcher :=
  let tagsCopy := copyNonEmpty [] tags
  { tags := tagsCopy }

/-- `InboundTagMatcher.Apply` (condition.go 345-357). -/
def InboundTagMatcher.Apply (v : InboundTagMatcher) (ctx : Context) : Bool :=
  match InboundTagFromContext ctx with
  | none => false
  | some tag => anyEqual tag v.tags

/-! ## The combinators -/

/-- The interface `Condition`: a call of `Apply(ctx)` returns a boolean and may change
the state `S` of the matchers (the caches of the GFW matchers; any state at all for a
condition defined elsewhere). -/
abbrev Condition (S : Type) := Context → S → Bool × S

/-- The type `ConditionChan`, a slice of conditions. -/
abbrev ConditionChan (S : Type) := List (Condition S)

/-- `NewConditionChan` (condition.go 21-24). -/
def NewConditionChan {S : Type} : ConditionChan S := []

/-- `ConditionChan.Add` (condition.go 26-29). -/
def ConditionChan.Add {S : Type} (v : ConditionChan S) (cond : Condition S) :
    ConditionChan S := v ++ [cond]

/-- `ConditionChan.Apply` (condition.go 31-38). -/
def ConditionChan.Apply {S : Type} : ConditionChan S → Context → S → Bool × S
  | [], _, s => (true, s)
  | cond :: rest, ctx, s =>
    let r := cond ctx s
    if !r.1 then (false, r.2) else ConditionChan.Apply rest ctx r.2

/-- `ConditionChan.Len` (condition.go 40-42). -/
def ConditionChan.Len {S : Type} (v : ConditionChan S) : Nat := v.length

/-- The type `AnyCondition`, a slice of conditions. -/
abbrev AnyCondition (S : Type) := List (Condition S)

/-- `NewAnyCondition` (condition.go 46-49). -/
def NewAnyCondition {S : Type} : AnyCondition S := []

/-- `AnyCondition.Add` (condition.go 51-54). -/
def AnyCondition.Add {S : Type} (v : AnyCondition S) (cond : Condition S) :
    AnyCondition S := v ++ [cond]

/-- `AnyCondition.Apply` (condition.go 56-63). -/
def AnyCondition.Apply {S : Type} : AnyCondition S → Context → S → Bool × S
  | [], _, s => (false, s)
  | cond :: rest, ctx, s =>
    let r := cond ctx s
    if r.1 then (true, r.2) else AnyCondition.Apply rest ctx r.2

/-- `AnyCondition.Len` (condition.go 65-67). -/
def AnyCondition.Len {S : Type} (v : AnyCondition S) : Nat := v.length

/-- The positions of the children whose `Apply` a call of `ConditionChan.Apply` calls,
in the order of the calls: the control flow of condition.go 32-36. -/
def ConditionChan.evaluated {S : Type} : ConditionChan S → Context → S → List Nat
  | [], _, _ => []
  | cond :: rest, ctx, s =>
    let r := cond ctx s
    0 :: (if !r.1 then [] else (ConditionChan.evaluated rest ctx r.2).map (· + 1))

/-- A matcher without state as a condition. -/
def Condition.ofPure {S : Type} (f : Context → Bool) : Condition S := fun ctx s => (f ctx, s)

/-- A GFW matcher as a condition; the state is the matcher with its cache. -/
def Condition.ofGfw (re : GoString → GoString → Bool) : Condition GfwMatcher :=
  fun ctx m => GfwMatcher.Apply re m ctx

/-- The domains with which a call of `GfwMatcher.Apply` invokes `IsBlockedByGFW`, in the
order of the invocations: the control flow of condition.go 146-172. -/
def GfwMatcher.invocations (m : GfwMatcher) (ctx : Context) : List GoString :=
  match TargetFromContext ctx with
  | none => []
  | some dest =>
    if !dest.Address.Family.IsDomain then []
    else
      let domain := dest.Address.Domain
      match List.lookup domain m.cache with
      | some _ => []
      | none =>
        match List.lookup domain m.cache with
        | some _ => []
        | none => [domain]

/-! ## The candidate IPs, in the words of the specification -/

/-- The candidate IPs of an IP matcher of address family `fam`, following the spec: the
resolved IPs filtered to the family, plus the target address (the source address when
`onSource`) when it is of that family. -/
def candidateIPs (fam : AddressFamily) (onSource : Bool) (ctx : Context) : List (List Nat) :=
  ((ctx.resolvedIPs.getD []).filter (fun a => a.Family = fam)).map Address.IP ++
    (match (if onSource then ctx.source else ctx.target) with
     | some dest => if dest.Address.Family = fam then [dest.Address.IP] else []
     | none => [])

/-- The address family of a prefix, by the length of its ip: IPv4 for 4 bytes, IPv6 for
16 bytes. -/
def prefixFamily (ip : List Nat) : Option AddressFamily :=
  if ip.length = 4 then some .IPv4 else if ip.length = 16 then some .IPv6 else none

/-! ## The GFW rule list, in the words of the specification -/

/-- Labels joined by the byte `c`. -/
def joinLabels (c : Nat) : List GoString → GoString
  | [] => []
  | [a] => a
  | a :: b :: t => a ++ c :: joinLabels c (b :: t)

/-- The root of a domain, following the spec: the last two dot-separated labels joined
by '.', extended to the last three labels when the penultimate label is shorter than 4;
the domain itself when it has fewer than three labels. -/
def specRoot (D : GoString) : GoString :=
  let labels := Split 46 D
  if labels.length < 3 then D
  else if (labels.getD (labels.length - 2) []).length < 4 then
    joinLabels 46 (labels.drop (labels.length - 3))
  else joinLabels 46 (labels.drop (labels.length - 2))

/-- The lines `Parse` reads from the input, in order (`n` calls of `ReadLine` at most). -/
def readLines : Nat → GoString → List GoString
  | 0, _ => []
  | n + 1, input =>
    match ReadLine input with
    | none => []
    | some (line, rest) => line :: readLines n rest

/-- The rule a line adds to the slow list, `none` when it adds none. -/
def slowRule (line : GoString) : Option gfwListRule :=
  match buildRule line with
  | some (some (rule, _, false)) => some rule
  | _ => none

/-- The verdict of the first rule of `rules` that matches `D`: false for a whitelist
rule, true for any other rule, false when no rule matches. -/
def firstMatchVerdict (re : GoString → GoString → Bool) (rules : List gfwListRule)
    (D : GoString) : Bool :=
  match rules.find? (fun r => r.matchDomain re D) with
  | some r => !r.isWhiteList
  | none => false

/-- The string is a key of the map. -/
def isKey (m : RuleMap) (k : GoString) : Prop := (mapGet m k).isSome = true

instance (m : RuleMap) (k : GoString) : Decidable (isKey m k) := by
  unfold isKey; infer_instance

/-- Every entry of the map under a key `k` is the host-wildcard rule of pattern `k`,
possibly wrapped as a whitelist rule. -/
def FastInv (m : RuleMap) : Prop :=
  ∀ k r, mapGet m k = some r →
    r = .hostWildcardRule k ∨ r = .whiteListRule (.hostWildcardRule k)

/-- A regular-expression engine that matches nothing; it stands for `regexp.MatchString`
on rule sets that hold no regex rule. -/
def noRegexp : GoString → GoString → Bool := fun _ _ => false

/-- The entry of the fast map held under `key`, else (when `key` is not a key of the
map) the entry held under `root`. -/
def entryFor (m : RuleMap) (key root : GoString) : Option gfwListRule :=
  match mapGet m key with
  | some r => some r
  | none => mapGet m root

/-- The lines of a rule text, in the order `Parse` reads them. -/
def linesOf (rules : GoString) : List GoString := readLines (rules.length + 1) rules

/-- Every entry of the cache holds the verdict of `IsBlockedByGFW` for its domain. -/
def CacheCoherent (re : GoString → GoString → Bool) (m : GfwMatcher) : Prop :=
  ∀ D b, (D, b) ∈ m.cache → b = IsBlockedByGFW re m.GFWList D

/-! ## The combinators and the parser, in the words of the specification -/

/-- The state after the conditions of `cs` have each been applied once, in order. -/
def applyInOrder {S : Type} (cs : List (Condition S)) (ctx : Context) (s : S) : S :=
  cs.foldl (fun st c => (c ctx st).2) s

/-- The result of the child at position `k` when the children are applied one after the
other: child `k` is applied in the state the children before it leave. -/
def childResult {S : Type} (cs : List (Condition S)) (ctx : Context) (s : S) (k : Nat) :
    Option Bool :=
  (cs.get? k).map (fun c => (c ctx (applyInOrder (cs.take k) ctx s)).1)

/-- The result of the condition does not depend on the state. -/
def StateFree {S : Type} (c : Condition S) (ctx : Context) : Prop :=
  ∀ s₁ s₂, (c ctx s₁).1 = (c ctx s₂).1

/-- The key and the rule a line writes to the fast map, `none` when it writes none. -/
def fastRule (line : GoString) : Option (GoString × gfwListRule) :=
  match buildRule line with
  | some (some (rule, str, true)) => some (str, rule)
  | _ => none

/-- The rule built from the last of the lines that write to the fast map under `K`. -/
def lastWrite (K : GoString) (lines : List GoString) : Option gfwListRule :=
  (((lines.filterMap fastRule).filter (fun e => e.1 == K)).getLast?).map (fun e => e.2)

/-- A line is a comment in the sense of the rule syntax: after trimming it is empty or
begins with `!` or `[`. -/
def isCommentLine (line : GoString) : Bool :=
  let str := TrimSpace line
  str.length == 0 || HasPrefix str (lit "!") || HasPrefix str (lit "[")

/-- The context `ctx` with the address `a` put among its resolved IPs, after the first
`i` of them. -/
def addResolved (ctx : Context) (i : Nat) (a : Address) : Context :=
  let ips := ctx.resolvedIPs.getD []
  { ctx with resolvedIPs := some (ips.take i ++ a :: ips.drop i) }

/-- Drop one `\r` at the end of a line: what `ReadLine` does to a line that ends in `\n`. -/
def stripCR (line : GoString) : GoString :=
  if line.getLast? = some 13 then line.dropLast else line

/-- The body of the loop of `Parse` applied to the lines in order; `none` is a fault. -/
def runLines : List GoString → GFWList → Option GFWList
  | [], g => some g
  | line :: rest, g =>
    match parseLine line g with
    | none => none
    | some g1 => runLines rest g1

/-- The outcome of a run that needs no fuel. -/
def outcomeOf (r : Option GFWList) : Outcome GFWList :=
  match r with
  | some g => .ok g
  | none => .fault

/-! ## Lemmas on the string functions -/

theorem hasSuffix_iff (s suf : GoString) : HasSuffix s suf = true ↔ suf <:+ s := by
  unfold HasSuffix
  constructor
  · intro h
    simp only [Bool.and_eq_true, decide_eq_true_eq, beq_iff_eq] at h
    rw [← h.2]
    exact List.drop_suffix _ _
  · rintro ⟨t, rfl⟩
    simp

theorem hasPrefix_iff (s pre : GoString) : HasPrefix s pre = true ↔ pre <+: s := by
  unfold HasPrefix
  constructor
  · intro h
    simp only [Bool.and_eq_true, decide_eq_true_eq, beq_iff_eq] at h
    rw [← h.2]
    exact List.take_prefix _ _
  · rintro ⟨t, rfl⟩
    simp

theorem contains_iff (s sub : GoString) : Contains s sub = true ↔ sub <:+: s := by
  induction s with
  | nil =>
    simp only [Contains, hasPrefix_iff]
    constructor
    · intro h; exact h.isInfix
    · intro h
      have : sub = [] := List.eq_nil_of_infix_nil h
      subst this; exact List.nil_prefix
  | cons c s ih =>
    simp only [Contains, Bool.or_eq_true, hasPrefix_iff, ih]
    constructor
    · rintro (h | h)
      · exact h.isInfix
      · exact h.trans (List.suffix_cons c s).isInfix
    · intro h
      rcases List.infix_cons_iff.mp h with h | h
      · exact Or.inl h
      · exact Or.inr h

/-! ## Lemmas on `CIDRMatcher` -/

theorem collectIPv6_eq (ips : List (List Nat)) (l : List Address) :
    collectIPv6 ips l =
      ips ++ (l.filter (fun a => a.Family = AddressFamily.IPv6)).map Address.IP := by
  induction l generalizing ips with
  | nil => simp [collectIPv6]
  | cons a l ih =>
    unfold collectIPv6
    by_cases h : a.Family = AddressFamily.IPv6
    · simp [AddressFamily.IsIPv6, h, ih, List.filter_cons]
    · simp [AddressFamily.IsIPv6, h, ih, List.filter_cons]

theorem anyContains_iff (cidr : IPNet) (ips : List (List Nat)) :
    anyContains cidr ips = true ↔ ∃ ip ∈ ips, cidr.Contains ip = true := by
  induction ips with
  | nil => simp [anyContains]
  | cons ip rest ih =>
    unfold anyContains
    by_cases h : cidr.Contains ip = true
    · simp [h]
    · simp [h, ih]

theorem apply_ips_eq (v : CIDRMatcher) (ctx : Context) :
    v.Apply ctx = anyContains v.cidr (candidateIPs .IPv6 v.onSource ctx) := by
  unfold CIDRMatcher.Apply candidateIPs ResolvedIPsFromContext SourceFromContext
    TargetFromContext
  cases hr : ctx.resolvedIPs <;>
    cases hd : (if v.onSource = true then ctx.source else ctx.target) <;>
    simp [collectIPv6_eq, AddressFamily.IsIPv6]
  split <;> simp

theorem candidate_length (onSource : Bool) (ctx : Context) (ip : List Nat)
    (h : ip ∈ candidateIPs .IPv6 onSource ctx) : ip.length = 16 := by
  have key : ∀ a : Address, a.Family = AddressFamily.IPv6 → a.IP.length = 16 := by
    intro a ha
    cases a with
    | ipv4 _ _ => simp [Address.Family] at ha
    | ipv6 ip len => exact len
    | domain _ => simp [Address.Family] at ha
  unfold candidateIPs at h
  rw [List.mem_append] at h
  rcases h with h | h
  · rw [List.mem_map] at h
    obtain ⟨a, ha, rfl⟩ := h
    exact key a (by simpa using (List.mem_filter.mp ha).2)
  · cases hd : (if onSource = true then ctx.source else ctx.target) with
    | none => simp [hd] at h
    | some dest =>
      rw [hd] at h
      by_cases hf : dest.Address.Family = AddressFamily.IPv6
      · simp [hf] at h; subst h; exact key _ hf
      · simp [hf] at h

theorem to4_length (ip x : List Nat) (h : To4 ip = some x) : x.length = 4 := by
  unfold To4 at h
  split at h
  · simp at h; subst h; assumption
  · split at h
    · rename_i h16
      simp at h; subst h
      simp [h16.1]
    · simp at h

theorem contains_nil_mask (n : IPNet) (hm : n.Mask = []) (ip : List Nat)
    (hip : ip.length = 16) : n.Contains ip = false := by
  have hnn : networkNumberAndMask n = ([], []) := by
    unfold networkNumberAndMask
    simp only [hm]
    split <;> simp
  unfold IPNet.Contains
  rw [hnn]
  cases h4 : To4 ip with
  | none => simp [hip]
  | some x => simp [to4_length ip x h4]

theorem cidrMask_invalid (ip : List Nat) (mask : Nat)
    (h : mask > 8 * ip.length ∨ (ip.length ≠ 4 ∧ ip.length ≠ 16)) :
    CIDRMask mask (ip.length * 8) = [] := by
  unfold CIDRMask
  by_cases h1 : ip.length * 8 ≠ 8 * 4 ∧ ip.length * 8 ≠ 8 * 16
  · simp [h1]
  · rw [if_neg h1]
    have : ip.length = 4 ∨ ip.length = 16 := by omega
    rcases h with h | h
    · rw [if_pos (by omega)]
    · omega

/-! ## Lemmas on labels -/

theorem lit_dot : lit "." = [46] := rfl

theorem lit_colon : lit ":" = [58] := rfl

theorem split_ne_nil (c : Nat) (d : GoString) : Split c d ≠ [] := by
  induction d with
  | nil => simp [Split]
  | cons x xs ih =>
    unfold Split
    split
    · simp
    · split <;> simp

theorem split_length_pos (c : Nat) (d : GoString) : 0 < (Split c d).length :=
  List.length_pos.mpr (split_ne_nil c d)

theorem join_split (c : Nat) (d : GoString) : joinLabels c (Split c d) = d := by
  induction d with
  | nil => simp [Split, joinLabels]
  | cons x xs ih =>
    unfold Split
    by_cases hx : x = c
    · rw [if_pos hx]
      cases hs : Split c xs with
      | nil => exact absurd hs (split_ne_nil c xs)
      | cons l ls =>
        rw [hs] at ih
        simp [joinLabels, ih, hx]
    · rw [if_neg hx]
      cases hs : Split c xs with
      | nil => exact absurd hs (split_ne_nil c xs)
      | cons l ls =>
        rw [hs] at ih
        cases ls with
        | nil => simp [joinLabels] at ih ⊢; exact ih
        | cons l2 ls2 => simp [joinLabels] at ih ⊢; exact ih

theorem split_mem_no_sep (c : Nat) (d : GoString) : ∀ l ∈ Split c d, c ∉ l := by
  induction d with
  | nil => simp [Split]
  | cons x xs ih =>
    unfold Split
    by_cases hx : x = c
    · rw [if_pos hx]
      intro l hl
      rcases List.mem_cons.mp hl with rfl | hl
      · simp
      · exact ih l hl
    · rw [if_neg hx]
      cases hs : Split c xs with
      | nil => exact absurd hs (split_ne_nil c xs)
      | cons l0 ls =>
        rw [hs] at ih
        intro l hl
        rcases List.mem_cons.mp hl with rfl | hl
        · have := ih l0 (List.mem_cons_self _ _)
          simp only [List.mem_cons, not_or]
          exact ⟨fun h => hx h.symm, this⟩
        · exact ih l (List.mem_cons_of_mem _ hl)

theorem split_cons_ne (c x : Nat) (xs : GoString) (h : x ≠ c) :
    Split c (x :: xs) =
      match Split c xs with
      | [] => [[x]]
      | l :: ls => (x :: l) :: ls := by
  rw [Split, if_neg h]

theorem split_no_sep (c : Nat) (a : GoString) (h : c ∉ a) : Split c a = [a] := by
  induction a with
  | nil => simp [Split]
  | cons x xs ih =>
    simp only [List.mem_cons, not_or] at h
    rw [split_cons_ne c x xs (fun hx => h.1 hx.symm), ih h.2]

theorem split_append_sep (c : Nat) (a rest : GoString) (h : c ∉ a) :
    Split c (a ++ c :: rest) = a :: Split c rest := by
  induction a with
  | nil => simp [Split]
  | cons x xs ih =>
    simp only [List.mem_cons, not_or] at h
    rw [List.cons_append, split_cons_ne c x _ (fun hx => h.1 hx.symm), ih h.2]

theorem split_join (c : Nat) (ss : List GoString) (hne : ss ≠ [])
    (h : ∀ l ∈ ss, c ∉ l) : Split c (joinLabels c ss) = ss := by
  induction ss with
  | nil => exact absurd rfl hne
  | cons a t ih =>
    cases t with
    | nil => simpa [joinLabels] using split_no_sep c a (h a (List.mem_cons_self _ _))
    | cons b t =>
      simp only [joinLabels]
      rw [split_append_sep c a _ (h a (List.mem_cons_self _ _)),
        ih (by simp) (fun l hl => h l (List.mem_cons_of_mem _ hl))]

theorem joinLabels_suffix (c : Nat) (xs ys : List GoString) :
    joinLabels c ys <:+ joinLabels c (xs ++ ys) := by
  induction xs with
  | nil => exact List.suffix_refl _
  | cons a xs ih =>
    cases h : xs ++ ys with
    | nil =>
      have : ys = [] := (List.append_eq_nil.mp h).2
      subst this
      simp [joinLabels]
    | cons b t =>
      rw [h] at ih
      simp only [List.cons_append, h, joinLabels]
      exact ih.trans ((List.suffix_cons c _).trans (List.suffix_append a _))

theorem joinLabels_drop_suffix (c : Nat) (ss : List GoString) (k : Nat) :
    joinLabels c (ss.drop k) <:+ joinLabels c ss := by
  have := joinLabels_suffix c (ss.take k) (ss.drop k)
  rwa [List.take_append_drop] at this

theorem drop_last_two (l : List GoString) (h : 2 ≤ l.length) :
    l.drop (l.length - 2) = [l.getD (l.length - 2) [], l.getD (l.length - 1) []] := by
  have h1 : l.length - 2 < l.length := by omega
  have h2 : l.length - 2 + 1 < l.length := by omega
  rw [List.drop_eq_getElem_cons h1, List.drop_eq_getElem_cons h2,
    List.drop_of_length_le (by omega), List.getD_eq_getElem _ _ h1]
  have e : l.length - 1 = l.length - 2 + 1 := by omega
  rw [e, List.getD_eq_getElem _ _ h2]

theorem drop_last_three (l : List GoString) (h : 3 ≤ l.length) :
    l.drop (l.length - 3) =
      [l.getD (l.length - 3) [], l.getD (l.length - 2) [], l.getD (l.length - 1) []] := by
  have h1 : l.length - 3 < l.length := by omega
  have e : l.length - 3 + 1 = l.length - 2 := by omega
  rw [List.drop_eq_getElem_cons h1, e, drop_last_two l (by omega),
    List.getD_eq_getElem _ _ h1]

/-- The root the code derives is the root of the specification. -/
theorem labelRoot_eq_specRoot (d : GoString) : labelRoot d = specRoot d := by
  unfold labelRoot specRoot
  simp only [lit_dot]
  by_cases h : (Split 46 d).length > 2
  · have h3 : ¬ (Split 46 d).length < 3 := by omega
    rw [if_pos h, if_neg h3]
    by_cases hs : ((Split 46 d).getD ((Split 46 d).length - 2) []).length < 4
    · have hge : (Split 46 d).length ≥ 3 := by omega
      simp only [hs, hge, decide_True, Bool.and_self, if_true]
      rw [drop_last_three _ (by omega)]
      simp [joinLabels]
    · simp only [hs, decide_False, Bool.false_and, if_false]
      rw [drop_last_two _ (by omega)]
      simp [joinLabels]
  · have h3 : (Split 46 d).length < 3 := by omega
    rw [if_neg h, if_pos h3]

theorem specRoot_suffix (d : GoString) : specRoot d <:+ d := by
  unfold specRoot
  simp only
  split
  · exact List.suffix_refl _
  · split
    · have := joinLabels_drop_suffix 46 (Split 46 d) ((Split 46 d).length - 3)
      rwa [join_split] at this
    · have := joinLabels_drop_suffix 46 (Split 46 d) ((Split 46 d).length - 2)
      rwa [join_split] at this

theorem labelRoot_suffix (d : GoString) : labelRoot d <:+ d := by
  rw [labelRoot_eq_specRoot]; exact specRoot_suffix d

theorem specRoot_short (x : GoString) (h : (Split 46 x).length < 3) : specRoot x = x := by
  unfold specRoot; simp only; rw [if_pos h]

theorem specRoot_three (x a b c : GoString) (h : Split 46 x = [a, b, c]) :
    specRoot x = if b.length < 4 then joinLabels 46 [a, b, c] else joinLabels 46 [b, c] := by
  unfold specRoot; simp [h]

theorem specRoot_idem (d : GoString) : specRoot (specRoot d) = specRoot d := by
  by_cases h : (Split 46 d).length < 3
  · rw [specRoot_short d h, specRoot_short d h]
  · have hno : ∀ k, ∀ l ∈ (Split 46 d).drop k, 46 ∉ l := fun k l hl =>
      split_mem_no_sep 46 d l (List.mem_of_mem_drop hl)
    by_cases hs : ((Split 46 d).getD ((Split 46 d).length - 2) []).length < 4
    · have e : specRoot d = joinLabels 46 ((Split 46 d).drop ((Split 46 d).length - 3)) := by
        unfold specRoot; simp only; rw [if_neg h, if_pos hs]
      have hsp : Split 46 (specRoot d) = (Split 46 d).drop ((Split 46 d).length - 3) := by
        rw [e]
        exact split_join 46 _ (by rw [drop_last_three _ (by omega)]; simp) (hno _)
      rw [drop_last_three _ (by omega)] at hsp
      rw [specRoot_three _ _ _ _ hsp, if_pos hs, e, drop_last_three _ (by omega)]
    · have e : specRoot d = joinLabels 46 ((Split 46 d).drop ((Split 46 d).length - 2)) := by
        unfold specRoot; simp only; rw [if_neg h, if_neg hs]
      have hsp : Split 46 (specRoot d) = (Split 46 d).drop ((Split 46 d).length - 2) := by
        rw [e]
        exact split_join 46 _ (by rw [drop_last_two _ (by omega)]; simp) (hno _)
      rw [drop_last_two _ (by omega)] at hsp
      exact specRoot_short _ (by rw [hsp]; simp)

theorem contains_colon_iff (d : GoString) : Contains d (lit ":") = true ↔ 58 ∈ d := by
  rw [contains_iff, lit_colon]
  constructor
  · intro h; exact h.subset (List.mem_singleton_self _)
  · intro h
    obtain ⟨s, t, rfl⟩ := List.append_of_mem h
    exact ⟨s, t, by simp⟩

theorem stripPort_of_no_colon (d : GoString) (h : 58 ∉ d) : stripPort d = d := by
  unfold stripPort
  have : Contains d (lit ":") = false := by
    rw [← Bool.not_eq_true, contains_colon_iff]; exact h
  rw [this]; simp

/-! ## Lemmas on the rule map and on `Parse` -/

theorem lookup_filter_ne (m : RuleMap) (k k' : GoString) (h : k' ≠ k) :
    List.lookup k' (m.filter (fun e => e.1 != k)) = List.lookup k' m := by
  induction m with
  | nil => rfl
  | cons e m ih =>
    obtain ⟨ek, ev⟩ := e
    by_cases hek : ek = k
    · subst hek
      have hne : (k' == ek) = false := by simpa using h
      simp [List.filter_cons, List.lookup_cons, hne, ih]
    · have hne : (ek != k) = true := by simpa using hek
      simp only [List.filter_cons, hne, if_true, List.lookup_cons, ih]

theorem mapGet_mapSet (m : RuleMap) (k : GoString) (v : gfwListRule) (k' : GoString) :
    mapGet (mapSet m k v) k' = if k' = k then some v else mapGet m k' := by
  unfold mapGet mapSet
  by_cases h : k' = k
  · subst h; simp
  · have hne : (k' == k) = false := by simpa using h
    rw [List.lookup_cons, hne, if_neg h]
    exact lookup_filter_ne m k k' h

theorem classify_fast (s : GoString) (rule : gfwListRule) (str : GoString)
    (h : classify s = some (rule, str, true)) : rule = .hostWildcardRule str := by
  unfold classify at h
  split at h
  · cases hs : slice s 1 ((s.length : Int) - 1) <;> simp [hs] at h
  · split at h
    · cases hs : sliceFrom s 2 <;> simp [hs] at h
      rw [← h.1, ← h.2]
    · split at h
      · cases hs : sliceFrom s 1 <;> simp [hs] at h
      · split at h
        · split at h
          · cases hs : sliceFrom s 1 <;> simp [hs] at h
            rw [← h.1, ← h.2]
          · simp at h; rw [← h.1, ← h.2]
        · simp at h

theorem buildRule_fast (line : GoString) (rule : gfwListRule) (str : GoString)
    (h : buildRule line = some (some (rule, str, true))) :
    rule = .hostWildcardRule str ∨ rule = .whiteListRule (.hostWildcardRule str) := by
  unfold buildRule at h
  simp only at h
  split at h
  · simp at h
  · split at h
    · simp at h
    · rename_i s w hst
      split at h
      · simp at h
      · rename_i rule' str' fm hb
        simp only [Option.some.injEq, Prod.mk.injEq] at h
        obtain ⟨h1, h2, h3⟩ := h
        subst h2 h3
        have key := classify_fast s rule' str' hb
        subst key
        by_cases hw : w = true
        · right; rw [← h1]; simp [hw]
        · left; rw [← h1]; simp [hw]

theorem fastInv_store (g : GFWList) (line : GoString) (b : gfwListRule × GoString × Bool)
    (hb : buildRule line = some (some b)) (hg : FastInv g.ruleMap) :
    FastInv (storeRule g b).ruleMap := by
  obtain ⟨rule, str, fm⟩ := b
  unfold storeRule
  cases fm with
  | false => simpa using hg
  | true =>
    simp only [if_true]
    intro k r hk
    rw [mapGet_mapSet] at hk
    by_cases hks : k = str
    · subst hks
      rw [if_pos rfl] at hk
      cases hk
      exact buildRule_fast line _ _ hb
    · rw [if_neg hks] at hk
      exact hg k r hk

theorem parseLoop_induct (P : GFWList → Prop)
    (hstep : ∀ line g b, buildRule line = some (some b) → P g → P (storeRule g b)) :
    ∀ n input g g', parseLoop n input g = .ok g' → P g → P g' := by
  intro n
  induction n with
  | zero => intro input g g' h; simp [parseLoop] at h
  | succ n ih =>
    intro input g g' h hg
    unfold parseLoop at h
    cases hr : ReadLine input with
    | none => rw [hr] at h; simp only [Outcome.ok.injEq] at h; exact h ▸ hg
    | some p =>
      obtain ⟨line, rest⟩ := p
      rw [hr] at h
      simp only at h
      unfold parseLine at h
      cases hb : buildRule line with
      | none => rw [hb] at h; simp at h
      | some ob =>
        rw [hb] at h
        cases ob with
        | none => exact ih rest g g' h hg
        | some b => exact ih rest _ g' h (hstep line g b hb hg)

/-- The fast map built by `Parse` holds under each key the host-wildcard rule of that
key, possibly wrapped as a whitelist rule. -/
theorem parse_fastInv (rules : GoString) (g : GFWList) (h : Parse rules = .ok g) :
    FastInv g.ruleMap :=
  parseLoop_induct (fun g => FastInv g.ruleMap) (fun line g b hb hg => fastInv_store g line b hb hg)
    _ rules ⟨[], []⟩ g h (by intro k r hk; simp [mapGet] at hk)

theorem readLine_lt (input line rest : GoString) (h : ReadLine input = some (line, rest)) :
    rest.length < input.length := by
  unfold ReadLine at h
  split at h
  · simp at h
  · rename_i hne
    have hpos : 0 < input.length := List.length_pos.mpr hne
    split at h
    · simp only [Option.some.injEq, Prod.mk.injEq] at h
      rw [← h.2, List.length_drop]; omega
    · split at h
      · rename_i hfull
        unfold defaultBufSize at hfull h
        split at h
        · simp only [Option.some.injEq, Prod.mk.injEq] at h
          rw [← h.2, List.length_drop]; omega
        · simp only [Option.some.injEq, Prod.mk.injEq] at h
          rw [← h.2, List.length_drop]; omega
      · simp only [Option.some.injEq, Prod.mk.injEq] at h
        rw [← h.2]; simpa using hpos

/-- The loop of `Parse` never runs out of fuel. -/
theorem parseLoop_fuel (n : Nat) : ∀ (input : GoString) (g : GFWList),
    input.length < n → parseLoop n input g ≠ .fuel := by
  induction n with
  | zero => intro input g h; omega
  | succ n ih =>
    intro input g h
    unfold parseLoop
    cases hr : ReadLine input with
    | none => simp
    | some p =>
      obtain ⟨line, rest⟩ := p
      simp only
      cases hp : parseLine line g with
      | none => simp
      | some g1 =>
        simp only
        exact ih rest g1 (by have := readLine_lt input line rest hr; omega)

theorem parse_ne_fuel (rules : GoString) : Parse rules ≠ .fuel :=
  parseLoop_fuel _ rules _ (Nat.lt_succ_self _)

theorem storeRule_ruleList (g : GFWList) (b : gfwListRule × GoString × Bool) :
    (storeRule g b).ruleList = g.ruleList ++ (if b.2.2 then [] else [b.1]) := by
  unfold storeRule
  cases b.2.2 <;> simp

theorem parseLoop_ruleList (n : Nat) : ∀ (input : GoString) (g g' : GFWList),
    parseLoop n input g = .ok g' →
      g'.ruleList = g.ruleList ++ (readLines n input).filterMap slowRule := by
  induction n with
  | zero => intro input g g' h; simp [parseLoop] at h
  | succ n ih =>
    intro input g g' h
    unfold parseLoop at h
    unfold readLines
    cases hr : ReadLine input with
    | none => rw [hr] at h; simp only [Outcome.ok.injEq] at h; simp [h]
    | some p =>
      obtain ⟨line, rest⟩ := p
      rw [hr] at h
      simp only at h ⊢
      unfold parseLine at h
      cases hb : buildRule line with
      | none => rw [hb] at h; simp at h
      | some ob =>
        rw [hb] at h
        cases ob with
        | none =>
          rw [ih rest g g' h]
          simp [List.filterMap_cons, slowRule, hb]
        | some b =>
          obtain ⟨rule, str, fm⟩ := b
          rw [ih rest _ g' h, storeRule_ruleList]
          cases fm <;> simp [List.filterMap_cons, slowRule, hb]

theorem slowMatch_eq (re : GoString → GoString → Bool) (rules : List gfwListRule)
    (D : GoString) : slowMatch re rules D = firstMatchVerdict re rules D := by
  unfold firstMatchVerdict
  induction rules with
  | nil => rfl
  | cons r rest ih =>
    unfold slowMatch
    rw [List.find?_cons]
    cases hm : r.matchDomain re D
    · simpa using ih
    · cases hw : r.isWhiteList <;> simp [hw]


/-! ## Lemmas on the fuel of `TrimSpace` and `readLines` -/

theorem trimLeft_done (n : Nat) : ∀ s : GoString, s.length ≤ n →
    leadingSpace (trimLeft n s) = 0 := by
  induction n with
  | zero =>
    intro s h
    have : s = [] := List.length_eq_zero.mp (Nat.le_zero.mp h)
    subst this
    decide
  | succ n ih =>
    intro s h
    unfold trimLeft
    by_cases h0 : leadingSpace s = 0
    · rw [if_pos h0]; exact h0
    · rw [if_neg h0]
      exact ih _ (by rw [List.length_drop]; omega)

theorem trimRight_done (n : Nat) : ∀ s : GoString, s.length ≤ n →
    trailingSpace (trimRight n s) = 0 := by
  induction n with
  | zero =>
    intro s h
    have : s = [] := List.length_eq_zero.mp (Nat.le_zero.mp h)
    subst this
    decide
  | succ n ih =>
    intro s h
    unfold trimRight
    by_cases h0 : trailingSpace s = 0
    · rw [if_pos h0]; exact h0
    · rw [if_neg h0]
      exact ih _ (by rw [List.length_take]; omega)

/-- The fuel of `TrimSpace` is enough: no white-space rune is left at the end of the
result, and none was left at the start before the end was trimmed. -/
theorem trimSpace_done (s : GoString) :
    leadingSpace (trimLeft s.length s) = 0 ∧ trailingSpace (TrimSpace s) = 0 :=
  ⟨trimLeft_done _ s (Nat.le_refl _), trimRight_done _ _ (Nat.le_refl _)⟩

/-- The lines read do not depend on the fuel, once there is more fuel than input. -/
theorem readLines_fuel (n : Nat) : ∀ (k : Nat) (input : GoString),
    input.length < n → input.length < k → readLines n input = readLines k input := by
  induction n with
  | zero => intro k input h; omega
  | succ n ih =>
    intro k input hn hk
    cases k with
    | zero => omega
    | succ k =>
      unfold readLines
      cases hr : ReadLine input with
      | none => rfl
      | some p =>
        obtain ⟨line, rest⟩ := p
        have := readLine_lt input line rest hr
        simp only
        rw [ih k rest (by omega) (by omega)]

/-! ## Lemmas on the faults of `Parse` -/

theorem sliceFrom_of_prefix (str pre : GoString) (h : HasPrefix str pre = true) :
    sliceFrom str pre.length = some (str.drop pre.length) := by
  have hle : pre.length ≤ str.length := ((hasPrefix_iff str pre).mp h).length_le
  unfold sliceFrom slice
  rw [if_pos ⟨by omega, by omega, le_refl _⟩]
  simp

theorem slice_inner (str : GoString) :
    slice str 1 ((str.length : Int) - 1) = none ↔ str.length < 2 := by
  unfold slice
  constructor
  · intro h
    by_contra hlen
    rw [if_pos ⟨by omega, by omega, by omega⟩] at h
    simp at h
  · intro h
    rw [if_neg (by omega)]

theorem length_one_of_slash (str : GoString) (h1 : HasPrefix str (lit "/") = true)
    (h2 : str.length < 2) : str = lit "/" := by
  obtain ⟨t, rfl⟩ := (hasPrefix_iff str _).mp h1
  have : t = [] := by
    have hl : (lit "/").length = 1 := rfl
    rw [List.length_append, hl] at h2
    exact List.length_eq_zero.mp (by omega)
  subst this
  simp

theorem classify_fault_iff (s : GoString) : classify s = none ↔ s = lit "/" := by
  unfold classify
  by_cases hre : (HasPrefix s (lit "/") && HasSuffix s (lit "/")) = true
  · rw [if_pos hre]
    have hp : HasPrefix s (lit "/") = true := by
      simp only [Bool.and_eq_true] at hre; exact hre.1
    cases hsl : slice s 1 ((s.length : Int) - 1) with
    | none =>
      simp only [Option.map_none', true_iff]
      exact length_one_of_slash s hp ((slice_inner s).mp hsl)
    | some t =>
      simp only [Option.map_some']
      constructor
      · intro h; simp at h
      · intro hs
        subst hs
        have hn : slice (lit "/") 1 (((lit "/").length : Int) - 1) = none := by decide
        rw [hn] at hsl
        simp at hsl
  · rw [if_neg hre]
    have hne : s ≠ lit "/" := by
      intro hs; subst hs; exact hre (by decide)
    simp only [hne, iff_false]
    by_cases h2 : HasPrefix s (lit "||") = true
    · rw [if_pos h2]
      have := sliceFrom_of_prefix s (lit "||") h2
      rw [show (((lit "||").length : Nat) : Int) = 2 from rfl] at this
      rw [this]; simp
    · rw [if_neg h2]
      by_cases h1 : HasPrefix s (lit "|") = true
      · rw [if_pos h1]
        have := sliceFrom_of_prefix s (lit "|") h1
        rw [show (((lit "|").length : Nat) : Int) = 1 from rfl] at this
        rw [this]; simp
      · rw [if_neg h1]
        by_cases hc : (!Contains s (lit "/")) = true
        · rw [if_pos hc]
          by_cases hd : HasPrefix s (lit ".") = true
          · rw [if_pos hd]
            have := sliceFrom_of_prefix s (lit ".") hd
            rw [show (((lit ".").length : Nat) : Int) = 1 from rfl] at this
            rw [this]; simp
          · rw [if_neg hd]; simp
        · rw [if_neg hc]; simp

/-- A line makes `Parse` fault exactly when it trims to `/` or to `@@/`. -/
theorem buildRule_fault_iff (line : GoString) :
    buildRule line = none ↔ TrimSpace line = lit "/" ∨ TrimSpace line = lit "@@/" := by
  unfold buildRule
  simp only
  by_cases hcm : (HasPrefix (TrimSpace line) (lit "!") || (TrimSpace line).length == 0 ||
      HasPrefix (TrimSpace line) (lit "[")) = true
  · rw [if_pos hcm]
    constructor
    · intro h; simp at h
    · rintro (h | h) <;> (rw [h] at hcm; exact absurd hcm (by decide))
  · rw [if_neg hcm]
    by_cases hw : HasPrefix (TrimSpace line) (lit "@@") = true
    · rw [if_pos hw]
      have hs := sliceFrom_of_prefix (TrimSpace line) (lit "@@") hw
      rw [show (((lit "@@").length : Nat) : Int) = 2 from rfl] at hs
      rw [hs]
      simp only [Option.map_some']
      obtain ⟨t, ht⟩ := (hasPrefix_iff _ _).mp hw
      have hdrop : (TrimSpace line).drop (lit "@@").length = t := by
        rw [← ht]; simp
      rw [hdrop]
      have hfault : classify t = none ↔
          (TrimSpace line = lit "/" ∨ TrimSpace line = lit "@@/") := by
        rw [classify_fault_iff]
        constructor
        · intro h; right; rw [← ht, h]; rfl
        · rintro (h | h)
          · rw [h] at hw; exact absurd hw (by decide)
          · rw [h] at ht
            have : lit "@@" ++ t = lit "@@" ++ lit "/" := ht
            exact List.append_cancel_left this
      cases hc : classify t with
      | none => simp only [true_iff]; exact hfault.mp hc
      | some b =>
        constructor
        · intro h; simp at h
        · intro h
          rw [hfault.mpr h] at hc
          simp at hc
    · rw [if_neg hw]
      simp only
      have hfault : classify (TrimSpace line) = none ↔
          (TrimSpace line = lit "/" ∨ TrimSpace line = lit "@@/") := by
        rw [classify_fault_iff]
        constructor
        · exact Or.inl
        · rintro (h | h)
          · exact h
          · rw [h] at hw; exact absurd hw (by decide)
      cases hc : classify (TrimSpace line) with
      | none => simp only [true_iff]; exact hfault.mp hc
      | some b =>
        constructor
        · intro h; simp at h
        · intro h
          rw [hfault.mpr h] at hc
          simp at hc

theorem parseLine_none_iff (line : GoString) (g : GFWList) :
    parseLine line g = none ↔ buildRule line = none := by
  unfold parseLine
  cases hb : buildRule line with
  | none => simp
  | some ob => cases ob <;> simp

theorem parseLoop_fault_iff (n : Nat) : ∀ (input : GoString) (g : GFWList),
    input.length < n →
      (parseLoop n input g = .fault ↔ ∃ line ∈ readLines n input, buildRule line = none) := by
  induction n with
  | zero => intro input g h; omega
  | succ n ih =>
    intro input g h
    unfold parseLoop readLines
    cases hr : ReadLine input with
    | none => simp
    | some p =>
      obtain ⟨line, rest⟩ := p
      have hlt := readLine_lt input line rest hr
      simp only [List.mem_cons, exists_eq_or_imp]
      cases hp : parseLine line g with
      | none =>
        simp only [true_iff]
        exact Or.inl ((parseLine_none_iff line g).mp hp)
      | some g1 =>
        have hb : buildRule line ≠ none := by
          intro hb
          rw [(parseLine_none_iff line g).mpr hb] at hp
          simp at hp
        simp only [hb, false_or]
        exact ih rest g1 (by omega)

/-- `Parse` stops with a fault exactly when some line of the text trims to `/` or to
`@@/`; on every other text it returns a rule set. -/
theorem parse_fault_iff (rules : GoString) :
    (Parse rules = .fault ↔
        ∃ line ∈ linesOf rules, TrimSpace line = lit "/" ∨ TrimSpace line = lit "@@/") ∧
      (Parse rules ≠ .fault → ∃ g, Parse rules = .ok g) := by
  constructor
  · unfold Parse linesOf
    rw [parseLoop_fault_iff _ rules _ (Nat.lt_succ_self _)]
    simp only [buildRule_fault_iff]
  · intro h
    cases hp : Parse rules with
    | ok g => exact ⟨g, rfl⟩
    | fault => exact absurd hp h
    | fuel => exact absurd hp (parse_ne_fuel rules)


/-! ## Lemmas on `FastMatchDomain` -/

theorem fastMatch_eq (re : GoString → GoString → Bool) (g : GFWList) (D : GoString) :
    FastMatchDomain re g D =
      match entryFor g.ruleMap (stripPort D) (rootDomain D) with
      | some rule =>
        if rule.isWhiteList then (!rule.matchDomain re (stripPort D), true)
        else (rule.matchDomain re (stripPort D), true)
      | none => (false, false) := by
  unfold FastMatchDomain entryFor rootDomain
  simp only
  cases h : mapGet g.ruleMap (stripPort D) with
  | some r => rfl
  | none =>
    simp only
    by_cases hr : labelRoot (stripPort D) = stripPort D
    · simp [hr, h]
    · simp [hr]

theorem entry_matches (re : GoString → GoString → Bool) (m : RuleMap) (hm : FastInv m)
    (d : GoString) (r : gfwListRule) (h : entryFor m d (labelRoot d) = some r) :
    r.matchDomain re d = true := by
  have hcont : ∀ k, k <:+ d → ∀ r, mapGet m k = some r → r.matchDomain re d = true := by
    intro k hk r hr
    have hc : Contains d k = true := (contains_iff d k).mpr hk.isInfix
    rcases hm k r hr with rfl | rfl <;> simp [gfwListRule.matchDomain, hc]
  unfold entryFor at h
  cases hd : mapGet m d with
  | some r' =>
    rw [hd] at h
    simp only [Option.some.injEq] at h
    subst h
    exact hcont d (List.suffix_refl d) _ hd
  | none =>
    rw [hd] at h
    exact hcont _ (labelRoot_suffix d) _ h

theorem isBlocked_of_entry (re : GoString → GoString → Bool) (g : GFWList)
    (hg : FastInv g.ruleMap) (D : GoString) (r : gfwListRule)
    (h : entryFor g.ruleMap (stripPort D) (rootDomain D) = some r) :
    IsBlockedByGFW re g D = !r.isWhiteList := by
  have hm := entry_matches re g.ruleMap hg (stripPort D) r h
  unfold IsBlockedByGFW
  rw [fastMatch_eq, h]
  cases hw : r.isWhiteList <;> simp [hm, hw]

theorem fast_present_iff (re : GoString → GoString → Bool) (g : GFWList) (D : GoString)
    (hc : 58 ∉ D) :
    (FastMatchDomain re g D).2 = true ↔
      isKey g.ruleMap D ∨ (3 ≤ (Split 46 D).length ∧ isKey g.ruleMap (specRoot D)) := by
  have hroot : rootDomain D = specRoot D := by
    unfold rootDomain; rw [stripPort_of_no_colon D hc, labelRoot_eq_specRoot]
  rw [fastMatch_eq, stripPort_of_no_colon D hc, hroot]
  unfold entryFor isKey
  cases hd : mapGet g.ruleMap D with
  | some r => cases hw : r.isWhiteList <;> simp [hw]
  | none =>
    simp only [Option.isSome_none, Bool.false_eq_true, false_or]
    by_cases h3 : 3 ≤ (Split 46 D).length
    · cases hr : mapGet g.ruleMap (specRoot D) with
      | some r => cases hw : r.isWhiteList <;> simp [hw, h3]
      | none => simp
    · have : specRoot D = D := specRoot_short D (by omega)
      rw [this, hd]
      simp

/-! ## Lemmas on `stripPort` -/

theorem indexByte_lt (c : Nat) (s : GoString) (i : Nat) (h : indexByte c s = some i) :
    i < s.length := by
  induction s generalizing i with
  | nil => simp [indexByte] at h
  | cons x xs ih =>
    unfold indexByte at h
    split at h
    · simp at h; subst h; simp
    · cases hx : indexByte c xs with
      | none => rw [hx] at h; simp at h
      | some j =>
        rw [hx] at h; simp at h; subst h
        have := ih j hx
        simp; omega

theorem lastIndexByte_lt (c : Nat) (s : GoString) (i : Nat)
    (h : lastIndexByte c s = some i) : i < s.length := by
  induction s generalizing i with
  | nil => simp [lastIndexByte] at h
  | cons x xs ih =>
    unfold lastIndexByte at h
    cases hx : lastIndexByte c xs with
    | some j =>
      rw [hx] at h; simp at h; subst h
      have := ih j hx
      simp; omega
    | none =>
      rw [hx] at h
      simp only at h
      split at h
      · simp at h; subst h; simp
      · simp at h

theorem splitHostPort_host_lt (s host port : GoString)
    (h : SplitHostPort s = some (host, port)) : host.length < s.length := by
  unfold SplitHostPort at h
  cases hl : lastIndexByte 58 s with
  | none => rw [hl] at h; simp at h
  | some i =>
    rw [hl] at h
    simp only at h
    have hi := lastIndexByte_lt 58 s i hl
    split at h
    · cases he : indexByte 93 s with
      | none => rw [he] at h; simp at h
      | some e =>
        rw [he] at h
        simp only at h
        have hlt := indexByte_lt 93 s e he
        split at h
        · simp at h
        · split at h
          · split at h
            · simp at h
            · split at h
              · simp at h
              · simp only [Option.some.injEq, Prod.mk.injEq] at h
                rw [← h.1]
                simp only [List.length_drop, List.length_take]
                omega
          · simp at h
    · split at h
      · simp at h
      · split at h
        · simp at h
        · split at h
          · simp at h
          · simp only [Option.some.injEq, Prod.mk.injEq] at h
            rw [← h.1]
            simp only [List.length_take]
            omega

theorem stripPort_lt (s : GoString) (h : 58 ∈ s) : (stripPort s).length < s.length := by
  have hc : Contains s (lit ":") = true := (contains_colon_iff s).mpr h
  have hpos : 0 < s.length := List.length_pos_of_mem h
  unfold stripPort
  rw [if_pos hc]
  cases hs : SplitHostPort s with
  | none => simpa using hpos
  | some p =>
    obtain ⟨host, port⟩ := p
    exact splitHostPort_host_lt s host port hs

theorem rootDomain_idem_iff (D : GoString) :
    rootDomain (rootDomain D) = rootDomain D ↔ 58 ∉ rootDomain D := by
  constructor
  · intro h hmem
    have h1 := stripPort_lt (rootDomain D) hmem
    have h2 : (rootDomain (rootDomain D)).length ≤ (stripPort (rootDomain D)).length :=
      (labelRoot_suffix _).length_le
    rw [h] at h2
    omega
  · intro h
    have : rootDomain (rootDomain D) = labelRoot (rootDomain D) := by
      show labelRoot (stripPort (rootDomain D)) = _
      rw [stripPort_of_no_colon _ h]
    rw [this]
    unfold rootDomain
    rw [labelRoot_eq_specRoot, labelRoot_eq_specRoot, specRoot_idem]

theorem rootDomain_no_colon (D : GoString) (h : 58 ∉ D) : 58 ∉ rootDomain D := by
  unfold rootDomain
  rw [stripPort_of_no_colon D h]
  intro hmem
  exact h ((labelRoot_suffix D).subset hmem)

/-! ## Lemmas on `GfwMatcher` -/

theorem apply_gfwList (re : GoString → GoString → Bool) (m : GfwMatcher) (ctx : Context) :
    (GfwMatcher.Apply re m ctx).2.GFWList = m.GFWList := by
  unfold GfwMatcher.Apply
  split
  · rfl
  · split
    · rfl
    · dsimp only
      split
      · rfl
      · rfl

theorem lookup_mem (l : List (GoString × Bool)) (k : GoString) (b : Bool)
    (h : List.lookup k l = some b) : (k, b) ∈ l := by
  induction l with
  | nil => simp at h
  | cons e l ih =>
    obtain ⟨ek, ev⟩ := e
    rw [List.lookup_cons] at h
    by_cases hk : k = ek
    · subst hk
      simp at h
      subst h
      exact List.mem_cons_self _ _
    · have : (k == ek) = false := by simpa using hk
      rw [this] at h
      exact List.mem_cons_of_mem _ (ih h)

theorem apply_coherent (re : GoString → GoString → Bool) (m : GfwMatcher) (ctx : Context)
    (h : CacheCoherent re m) : CacheCoherent re (GfwMatcher.Apply re m ctx).2 := by
  unfold GfwMatcher.Apply
  split
  · exact h
  · split
    · exact h
    · dsimp only
      split
      · exact h
      · intro D b hmem
        simp only [List.mem_cons, Prod.mk.injEq] at hmem
        rcases hmem with ⟨rfl, rfl⟩ | hmem
        · rfl
        · exact h D b (List.mem_of_mem_filter hmem)

theorem apply_result (re : GoString → GoString → Bool) (m : GfwMatcher) (ctx : Context)
    (h : CacheCoherent re m) (dest : Destination) (D : GoString)
    (ht : ctx.target = some dest) (hd : dest.Address = .domain D) :
    (GfwMatcher.Apply re m ctx).1 = IsBlockedByGFW re m.GFWList D := by
  unfold GfwMatcher.Apply TargetFromContext
  simp only [ht, hd, Address.Family, AddressFamily.IsDomain, Address.Domain]
  cases hl : List.lookup D m.cache with
  | some b => simpa using h D b (lookup_mem _ _ _ hl)
  | none => simp

theorem run_coherent (re : GoString → GoString → Bool) (ctxs : List Context) :
    ∀ m : GfwMatcher, CacheCoherent re m →
      CacheCoherent re (GfwMatcher.run re m ctxs) ∧
        (GfwMatcher.run re m ctxs).GFWList = m.GFWList := by
  induction ctxs with
  | nil => intro m h; exact ⟨h, rfl⟩
  | cons ctx rest ih =>
    intro m h
    unfold GfwMatcher.run
    have := ih _ (apply_coherent re m ctx h)
    exact ⟨this.1, this.2.trans (apply_gfwList re m ctx)⟩


/-! ## C1: `CIDRMatcher.Apply` -/

/-- C1, counterexample: for the prefix 10.0.0.0/8, a target domain `x` and the resolved
IPs [10.1.2.3], the resolved IP is a candidate of the prefix's own family (IPv4) and is
contained in the prefix, yet `Apply` returns false: the IPv4 resolved IP is skipped. -/
theorem cidr_apply_skips_ipv4 :
    ∃ m, (NewCIDRMatcher [10, 0, 0, 0] 8 false).1 = some m ∧
      prefixFamily [10, 0, 0, 0] = some .IPv4 ∧
      [10, 1, 2, 3] ∈ candidateIPs .IPv4 false
        (resolvedTarget (lit "x") [.ipv4 [10, 1, 2, 3] rfl]) ∧
      m.cidr.Contains [10, 1, 2, 3] = true ∧
      m.Apply (resolvedTarget (lit "x") [.ipv4 [10, 1, 2, 3] rfl]) = false ∧
      ¬ (m.Apply (resolvedTarget (lit "x") [.ipv4 [10, 1, 2, 3] rfl]) = true ↔
          ∃ ip ∈ candidateIPs .IPv4 false (resolvedTarget (lit "x") [.ipv4 [10, 1, 2, 3] rfl]),
            m.cidr.Contains ip = true) :=
  ⟨⟨⟨[10, 0, 0, 0], [255, 0, 0, 0]⟩, false⟩, by decide, by decide, by decide, by decide,
    by decide, by decide⟩

/-- C1, amended: for every CIDRMatcher built by NewCIDRMatcher from a prefix (ip, bits)
and every context, Apply returns true iff some candidate IP is contained in the prefix,
where the candidates are the IPv6 resolved IPs plus the target address (the source address
when onSource is set) when it is IPv6, whatever the address family of the prefix. -/
theorem cidr_apply_iff_ipv6_candidate (ip : List Nat) (bits : Nat) (onSource : Bool)
    (m : CIDRMatcher) (ctx : Context)
    (hm : (NewCIDRMatcher ip bits onSource).1 = some m) :
    m.cidr = ⟨ip, CIDRMask bits (ip.length * 8)⟩ ∧
      (m.Apply ctx = true ↔
        ∃ c ∈ candidateIPs .IPv6 onSource ctx, m.cidr.Contains c = true) := by
  simp only [NewCIDRMatcher, Option.some.injEq] at hm
  subst hm
  exact ⟨rfl, by rw [apply_ips_eq, anyContains_iff]⟩

/-- C1, witness: the prefix 2001:db8::/32 matches the IPv6 resolved IP 2001:db8::1 and
does not match 2001:db9::1; the prefix 10.0.0.0/8 matches neither of the IPv4 resolved
IPs 10.1.2.3 and 11.1.2.3. -/
theorem cidr_apply_iff_ipv6_candidate_witness :
    (⟨⟨[0x20, 1, 0xd, 0xb8, 0, 0, 0, 0, 0, 0, 0, 0, 0, 0, 0, 0], CIDRMask 32 128⟩,
        false⟩ : CIDRMatcher).Apply
        (resolvedTarget (lit "x")
          [.ipv6 [0x20, 1, 0xd, 0xb8, 0, 0, 0, 0, 0, 0, 0, 0, 0, 0, 0, 1] rfl]) = true ∧
      (⟨⟨[0x20, 1, 0xd, 0xb8, 0, 0, 0, 0, 0, 0, 0, 0, 0, 0, 0, 0], CIDRMask 32 128⟩,
        false⟩ : CIDRMatcher).Apply
        (resolvedTarget (lit "x")
          [.ipv6 [0x20, 1, 0xd, 0xb9, 0, 0, 0, 0, 0, 0, 0, 0, 0, 0, 0, 1] rfl]) = false ∧
      (⟨⟨[10, 0, 0, 0], CIDRMask 8 32⟩, false⟩ : CIDRMatcher).Apply
        (resolvedTarget (lit "x") [.ipv4 [10, 1, 2, 3] rfl]) = false ∧
      (⟨⟨[10, 0, 0, 0], CIDRMask 8 32⟩, false⟩ : CIDRMatcher).Apply
        (resolvedTarget (lit "x") [.ipv4 [11, 1, 2, 3] rfl]) = false ∧
      ((⟨⟨[0x20, 1, 0xd, 0xb8, 0, 0, 0, 0, 0, 0, 0, 0, 0, 0, 0, 0], CIDRMask 32 128⟩,
          false⟩ : CIDRMatcher).cidr =
          ⟨[0x20, 1, 0xd, 0xb8, 0, 0, 0, 0, 0, 0, 0, 0, 0, 0, 0, 0],
            CIDRMask 32
              ([0x20, 1, 0xd, 0xb8, 0, 0, 0, 0, 0, 0, 0, 0, 0, 0, 0, 0].length * 8)⟩ ∧
        ((⟨⟨[0x20, 1, 0xd, 0xb8, 0, 0, 0, 0, 0, 0, 0, 0, 0, 0, 0, 0], CIDRMask 32 128⟩,
            false⟩ : CIDRMatcher).Apply
            (resolvedTarget (lit "x")
              [.ipv6 [0x20, 1, 0xd, 0xb8, 0, 0, 0, 0, 0, 0, 0, 0, 0, 0, 0, 1] rfl]) = true ↔
          ∃ c ∈ candidateIPs .IPv6 false
            (resolvedTarget (lit "x")
              [.ipv6 [0x20, 1, 0xd, 0xb8, 0, 0, 0, 0, 0, 0, 0, 0, 0, 0, 0, 1] rfl]),
            (⟨⟨[0x20, 1, 0xd, 0xb8, 0, 0, 0, 0, 0, 0, 0, 0, 0, 0, 0, 0], CIDRMask 32 128⟩,
              false⟩ : CIDRMatcher).cidr.Contains c = true)) :=
  ⟨by decide, by decide, by decide, by decide,
    cidr_apply_iff_ipv6_candidate [0x20, 1, 0xd, 0xb8, 0, 0, 0, 0, 0, 0, 0, 0, 0, 0, 0, 0]
      32 false _ _ rfl⟩

/-! ## C2: `SubDomainMatcher.Apply` -/

/-- C2: for every pattern P and every context whose target address is a domain D,
SubDomainMatcher(P).Apply returns (without fault) true iff D ends with P and either
len(D) == len(P) or the byte of D at index len(D)-len(P)-1 is '.'. -/
theorem subdomain_apply_iff (P D : GoString) (ctx : Context) (dest : Destination)
    (ht : ctx.target = some dest) (hd : dest.Address = .domain D) :
    SubDomainMatcher.Apply P ctx =
      some (decide (P <:+ D ∧
        (D.length = P.length ∨
          byteAt D ((D.length : Int) - (P.length : Int) - 1) = some 46))) := by
  unfold SubDomainMatcher.Apply TargetFromContext
  simp only [ht, hd, Address.Family, AddressFamily.IsDomain, Address.Domain]
  by_cases hs : P <:+ D
  · have hs' : HasSuffix D P = true := (hasSuffix_iff D P).mpr hs
    by_cases hl : D.length = P.length
    · simp [hs, hs', hl]
    · have hle : P.length ≤ D.length := hs.length_le
      have hlt : P.length < D.length := lt_of_le_of_ne hle (Ne.symm hl)
      have hb : byteAt D ((D.length : Int) - (P.length : Int) - 1) =
          D.get? (D.length - P.length - 1) := by
        unfold byteAt
        have h1 : (0 : Int) ≤ (D.length : Int) - (P.length : Int) - 1 := by omega
        have h2 : (D.length : Int) - (P.length : Int) - 1 < (D.length : Int) := by omega
        rw [if_pos ⟨h1, h2⟩]
        congr 1
        omega
      have hsome : ∃ b, D.get? (D.length - P.length - 1) = some b := by
        have : D.length - P.length - 1 < D.length := by omega
        exact ⟨_, List.get?_eq_get this⟩
      obtain ⟨b, hb'⟩ := hsome
      rw [hb, hb']
      by_cases hb46 : b = 46 <;> simp [hs, hs', hl, hb46]
  · have hs' : HasSuffix D P = false := by
      rw [← Bool.not_eq_true, hasSuffix_iff]; exact hs
    simp [hs, hs']

/-- C2, witness: the pattern example.com matches foo.example.com and example.com and does
not match fooexample.com. -/
theorem subdomain_apply_iff_witness :
    SubDomainMatcher.Apply (lit "example.com") (domainTarget (lit "foo.example.com")) =
        some true ∧
      SubDomainMatcher.Apply (lit "example.com") (domainTarget (lit "example.com")) =
        some true ∧
      SubDomainMatcher.Apply (lit "example.com") (domainTarget (lit "fooexample.com")) =
        some false ∧
      SubDomainMatcher.Apply (lit "example.com") (domainTarget (lit "foo.example.com")) =
        some (decide (lit "example.com" <:+ lit "foo.example.com" ∧
          ((lit "foo.example.com").length = (lit "example.com").length ∨
            byteAt (lit "foo.example.com")
              (((lit "foo.example.com").length : Int) - ((lit "example.com").length : Int) - 1)
              = some 46))) :=
  ⟨by decide, by decide, by decide,
    subdomain_apply_iff (lit "example.com") (lit "foo.example.com")
      (domainTarget (lit "foo.example.com")) ⟨.domain (lit "foo.example.com"), 443, .TCP⟩
      rfl rfl⟩

/-! ## C3: a whitelist entry of the fast map -/

/-- C3, counterexample: with the rules `@@||a.com:80` and `||a.com` the fast map holds a
whitelist entry under the query `a.com:80` itself, yet the query is blocked: the lookup
uses the port-stripped `a.com`, whose entry is not a whitelist rule. -/
theorem whitelist_under_raw_query_blocked :
    ∃ g, Parse (lit "@@||a.com:80\n||a.com") = .ok g ∧
      (∃ r, entryFor g.ruleMap (lit "a.com:80") (rootDomain (lit "a.com:80")) =
        some (.whiteListRule r)) ∧
      ∀ re, IsBlockedByGFW re g (lit "a.com:80") = true :=
  ⟨⟨[(lit "a.com", .hostWildcardRule (lit "a.com")),
      (lit "a.com:80", .whiteListRule (.hostWildcardRule (lit "a.com:80")))], []⟩,
    by decide, ⟨.hostWildcardRule (lit "a.com:80"), by decide⟩, fun _ => rfl⟩

/-- C3, amended: for every rule text and every domain D, writing D' for D with its
`:port` suffix stripped as FastMatchDomain strips it (D' is D when D contains no ':'): if
the fast map built by Parse holds a whitelist entry under D', or under the root domain of
D when D' itself is not a key, then IsBlockedByGFW(D) is false, whatever rules the slow
list contains. -/
theorem whitelist_fast_entry_not_blocked (re : GoString → GoString → Bool)
    (rules : GoString) (g : GFWList) (D : GoString) (r : gfwListRule)
    (hp : Parse rules = .ok g)
    (he : entryFor g.ruleMap (stripPort D) (rootDomain D) = some (.whiteListRule r)) :
    IsBlockedByGFW re g D = false := by
  rw [isBlocked_of_entry re g (parse_fastInv rules g hp) D _ he]
  rfl

/-- C3, witness: the rules `@@||a.com` and `|a.com`; the slow list holds a rule that
matches `a.com`, and `a.com` is not blocked. -/
theorem whitelist_fast_entry_not_blocked_witness :
    Parse (lit "@@||a.com\n|a.com") =
        .ok ⟨[(lit "a.com", .whiteListRule (.hostWildcardRule (lit "a.com")))],
          [.urlWildcardRule (lit "a.com") true]⟩ ∧
      (gfwListRule.urlWildcardRule (lit "a.com") true).matchDomain noRegexp (lit "a.com")
        = true ∧
      IsBlockedByGFW noRegexp
        ⟨[(lit "a.com", .whiteListRule (.hostWildcardRule (lit "a.com")))],
          [.urlWildcardRule (lit "a.com") true]⟩ (lit "a.com") = false :=
  ⟨by decide, by decide,
    whitelist_fast_entry_not_blocked noRegexp (lit "@@||a.com\n|a.com") _ (lit "a.com")
      (.hostWildcardRule (lit "a.com")) (by decide) (by decide)⟩

/-! ## C4: a non-whitelist entry of the fast map -/

/-- C4, counterexample: with the rules `||a.com:80` and `@@||a.com` the entry of the fast
map under the query `a.com:80` itself is not a whitelist rule, yet the query is not
blocked: the lookup uses the port-stripped `a.com`, whose entry is a whitelist rule. -/
theorem block_entry_under_raw_query_not_blocked :
    ∃ g, Parse (lit "||a.com:80\n@@||a.com") = .ok g ∧
      (∃ r, entryFor g.ruleMap (lit "a.com:80") (rootDomain (lit "a.com:80")) = some r ∧
        r.isWhiteList = false) ∧
      ∀ re, IsBlockedByGFW re g (lit "a.com:80") = false :=
  ⟨⟨[(lit "a.com", .whiteListRule (.hostWildcardRule (lit "a.com"))),
      (lit "a.com:80", .hostWildcardRule (lit "a.com:80"))], []⟩,
    by decide, ⟨.hostWildcardRule (lit "a.com:80"), by decide, by decide⟩, fun _ => rfl⟩

/-- C4, amended: for every rule text and every domain D, writing D' for D with its
`:port` suffix stripped as FastMatchDomain strips it (D' is D when D contains no ':'): if
the fast-map entry found under D' itself, else under the root domain of D, is a
non-whitelist rule, then IsBlockedByGFW(D) is true, even when the slow list holds a
whitelist rule that matches D. -/
theorem block_fast_entry_blocked (re : GoString → GoString → Bool)
    (rules : GoString) (g : GFWList) (D : GoString) (r : gfwListRule)
    (hp : Parse rules = .ok g)
    (he : entryFor g.ruleMap (stripPort D) (rootDomain D) = some r)
    (hw : r.isWhiteList = false) :
    IsBlockedByGFW re g D = true := by
  rw [isBlocked_of_entry re g (parse_fastInv rules g hp) D _ he, hw]
  rfl

/-- C4, witness: the rules `||google.com`, `@@||maps.google.com` and the slow-list
whitelist rule `@@|www.google.com`: google.com is blocked, maps.google.com is not, and
www.google.com is blocked through the root google.com although the slow-list whitelist
rule matches it. -/
theorem block_fast_entry_blocked_witness :
    Parse (lit "||google.com\n@@||maps.google.com\n@@|www.google.com") =
        .ok ⟨[(lit "maps.google.com", .whiteListRule (.hostWildcardRule (lit "maps.google.com"))),
            (lit "google.com", .hostWildcardRule (lit "google.com"))],
          [.whiteListRule (.urlWildcardRule (lit "www.google.com") true)]⟩ ∧
      rootDomain (lit "www.google.com") = lit "google.com" ∧
      (gfwListRule.whiteListRule (.urlWildcardRule (lit "www.google.com") true)).matchDomain
        noRegexp (lit "www.google.com") = true ∧
      IsBlockedByGFW noRegexp
        ⟨[(lit "maps.google.com", .whiteListRule (.hostWildcardRule (lit "maps.google.com"))),
            (lit "google.com", .hostWildcardRule (lit "google.com"))],
          [.whiteListRule (.urlWildcardRule (lit "www.google.com") true)]⟩
        (lit "google.com") = true ∧
      IsBlockedByGFW noRegexp
        ⟨[(lit "maps.google.com", .whiteListRule (.hostWildcardRule (lit "maps.google.com"))),
            (lit "google.com", .hostWildcardRule (lit "google.com"))],
          [.whiteListRule (.urlWildcardRule (lit "www.google.com") true)]⟩
        (lit "maps.google.com") = false ∧
      IsBlockedByGFW noRegexp
        ⟨[(lit "maps.google.com", .whiteListRule (.hostWildcardRule (lit "maps.google.com"))),
            (lit "google.com", .hostWildcardRule (lit "google.com"))],
          [.whiteListRule (.urlWildcardRule (lit "www.google.com") true)]⟩
        (lit "www.google.com") = true :=
  ⟨by decide, by decide, by decide, by decide, by decide,
    block_fast_entry_blocked noRegexp
      (lit "||google.com\n@@||maps.google.com\n@@|www.google.com") _ (lit "www.google.com")
      (.hostWildcardRule (lit "google.com")) (by decide) (by decide) rfl⟩

/-! ## C5: the slow path -/

/-- C5: for every rule text and every domain D for which the fast path reports
present = false, IsBlockedByGFW(D) is the verdict of the first slow-list rule whose
match(D) is true (false for a whitelist rule, true otherwise, false when no rule
matches), the slow list being the rules of the slow-path lines in rule-text line order. -/
theorem slow_path_first_match (re : GoString → GoString → Bool) (rules : GoString)
    (g : GFWList) (D : GoString) (hp : Parse rules = .ok g)
    (hf : (FastMatchDomain re g D).2 = false) :
    g.ruleList = (linesOf rules).filterMap slowRule ∧
      IsBlockedByGFW re g D =
        firstMatchVerdict re ((linesOf rules).filterMap slowRule) D := by
  have hl : g.ruleList = (linesOf rules).filterMap slowRule := by
    have := parseLoop_ruleList _ rules ⟨[], []⟩ g hp
    simpa [linesOf] using this
  refine ⟨hl, ?_⟩
  rw [← hl, ← slowMatch_eq]
  unfold IsBlockedByGFW
  cases hfm : FastMatchDomain re g D with
  | mk a b =>
    rw [hfm] at hf
    simp only at hf
    subst hf
    simp

/-- C5, witness: the slow-path rules `@@|a.com/x` and `a.com/` in this order leave
`a.com/x` unblocked (the whitelist rule is first) and block `a.com/y`; the empty rule
text blocks nothing. -/
theorem slow_path_first_match_witness :
    Parse (lit "@@|a.com/x\na.com/") =
        .ok ⟨[], [.whiteListRule (.urlWildcardRule (lit "a.com/x") true),
          .urlWildcardRule (lit "a.com/") false]⟩ ∧
      IsBlockedByGFW noRegexp
        ⟨[], [.whiteListRule (.urlWildcardRule (lit "a.com/x") true),
          .urlWildcardRule (lit "a.com/") false]⟩ (lit "a.com/x") = false ∧
      IsBlockedByGFW noRegexp
        ⟨[], [.whiteListRule (.urlWildcardRule (lit "a.com/x") true),
          .urlWildcardRule (lit "a.com/") false]⟩ (lit "a.com/y") = true ∧
      Parse (lit "") = .ok ⟨[], []⟩ ∧
      IsBlockedByGFW noRegexp ⟨[], []⟩ (lit "x.com") = false ∧
      (([] : List gfwListRule) = (linesOf (lit "")).filterMap slowRule ∧
        IsBlockedByGFW noRegexp ⟨[], []⟩ (lit "x.com") =
          firstMatchVerdict noRegexp ((linesOf (lit "")).filterMap slowRule) (lit "x.com")) :=
  ⟨by decide, by decide, by decide, by decide, by decide,
    slow_path_first_match noRegexp (lit "") ⟨[], []⟩ (lit "x.com") (by decide) (by decide)⟩

/-! ## C6: when the fast path reports a rule -/

/-- C6: for every rule text and every domain D containing no ':', FastMatchDomain(D)
reports present = true iff D is a key of the fast map, or D has at least three
dot-separated labels and root(D) is a key, root(D) being the root of the specification
and the root the code derives; for a domain of fewer than three labels root(D) = D and
present = true iff D itself is a key. -/
theorem fast_present_iff_key (re : GoString → GoString → Bool) (rules : GoString)
    (g : GFWList) (D : GoString) (_hp : Parse rules = .ok g)
    (hc : Contains D (lit ":") = false) :
    rootDomain D = specRoot D ∧
      ((FastMatchDomain re g D).2 = true ↔
        isKey g.ruleMap D ∨ (3 ≤ (Split 46 D).length ∧ isKey g.ruleMap (specRoot D))) ∧
      ((Split 46 D).length < 3 →
        specRoot D = D ∧ ((FastMatchDomain re g D).2 = true ↔ isKey g.ruleMap D)) := by
  have hc' : 58 ∉ D := by
    rw [← contains_colon_iff, hc]; exact Bool.false_ne_true
  have hiff := fast_present_iff re g D hc'
  refine ⟨?_, hiff, ?_⟩
  · unfold rootDomain; rw [stripPort_of_no_colon D hc', labelRoot_eq_specRoot]
  · intro h3
    refine ⟨specRoot_short D h3, ?_⟩
    rw [hiff]
    constructor
    · rintro (h | ⟨h, _⟩)
      · exact h
      · omega
    · exact Or.inl

/-- C6, witness: id.heroku.com has the root heroku.com; with the rule `||heroku.com` it
is present and blocked. -/
theorem fast_present_iff_key_witness :
    Parse (lit "||heroku.com") =
        .ok ⟨[(lit "heroku.com", .hostWildcardRule (lit "heroku.com"))], []⟩ ∧
      specRoot (lit "id.heroku.com") = lit "heroku.com" ∧
      FastMatchDomain noRegexp
        ⟨[(lit "heroku.com", .hostWildcardRule (lit "heroku.com"))], []⟩
        (lit "id.heroku.com") = (true, true) ∧
      IsBlockedByGFW noRegexp
        ⟨[(lit "heroku.com", .hostWildcardRule (lit "heroku.com"))], []⟩
        (lit "id.heroku.com") = true ∧
      (rootDomain (lit "id.heroku.com") = specRoot (lit "id.heroku.com") ∧
        ((FastMatchDomain noRegexp
            ⟨[(lit "heroku.com", .hostWildcardRule (lit "heroku.com"))], []⟩
            (lit "id.heroku.com")).2 = true ↔
          isKey [(lit "heroku.com", gfwListRule.hostWildcardRule (lit "heroku.com"))]
              (lit "id.heroku.com") ∨
            (3 ≤ (Split 46 (lit "id.heroku.com")).length ∧
              isKey [(lit "heroku.com", gfwListRule.hostWildcardRule (lit "heroku.com"))]
                (specRoot (lit "id.heroku.com")))) ∧
        ((Split 46 (lit "id.heroku.com")).length < 3 →
          specRoot (lit "id.heroku.com") = lit "id.heroku.com" ∧
            ((FastMatchDomain noRegexp
                ⟨[(lit "heroku.com", .hostWildcardRule (lit "heroku.com"))], []⟩
                (lit "id.heroku.com")).2 = true ↔
              isKey [(lit "heroku.com", gfwListRule.hostWildcardRule (lit "heroku.com"))]
                (lit "id.heroku.com")))) :=
  ⟨by decide, by decide, by decide, by decide,
    fast_present_iff_key noRegexp (lit "||heroku.com") _ (lit "id.heroku.com")
      (by decide) (by decide)⟩

/-! ## C7: the root of a root -/

/-- C7, counterexample: the query `[::1]:80` has the root `::1`, whose own root is the
empty string: `SplitHostPort` fails on `::1`. -/
theorem rootDomain_not_idempotent :
    rootDomain (lit "[::1]:80") = lit "::1" ∧ rootDomain (lit "::1") = lit "" ∧
      rootDomain (rootDomain (lit "[::1]:80")) ≠ rootDomain (lit "[::1]:80") := by
  decide

/-- C7, amended: for every query domain string D, root(root(D)) == root(D) iff root(D)
contains no ':'; in particular root(root(D)) == root(D) for every D that contains no ':'
and for every D whose port-stripped form contains no ':'. -/
theorem rootDomain_idempotent_iff (D : GoString) :
    (rootDomain (rootDomain D) = rootDomain D ↔ Contains (rootDomain D) (lit ":") = false) ∧
      (Contains D (lit ":") = false → rootDomain (rootDomain D) = rootDomain D) ∧
      (Contains (stripPort D) (lit ":") = false →
        rootDomain (rootDomain D) = rootDomain D) := by
  have hb : ∀ s : GoString, Contains s (lit ":") = false ↔ 58 ∉ s := by
    intro s
    rw [← contains_colon_iff, Bool.not_eq_true]
  refine ⟨?_, ?_, ?_⟩
  · rw [hb]; exact rootDomain_idem_iff D
  · intro h
    exact (rootDomain_idem_iff D).mpr (rootDomain_no_colon D ((hb D).mp h))
  · intro h
    refine (rootDomain_idem_iff D).mpr ?_
    intro hmem
    exact (hb _).mp h ((labelRoot_suffix (stripPort D)).subset hmem)

/-- C7, witness: `www.google.com:443` has the root `google.com`, a root of itself. -/
theorem rootDomain_idempotent_iff_witness :
    rootDomain (lit "www.google.com:443") = lit "google.com" ∧
      ((rootDomain (rootDomain (lit "www.google.com:443")) =
            rootDomain (lit "www.google.com:443") ↔
          Contains (rootDomain (lit "www.google.com:443")) (lit ":") = false) ∧
        (Contains (lit "www.google.com:443") (lit ":") = false →
          rootDomain (rootDomain (lit "www.google.com:443")) =
            rootDomain (lit "www.google.com:443")) ∧
        (Contains (stripPort (lit "www.google.com:443")) (lit ":") = false →
          rootDomain (rootDomain (lit "www.google.com:443")) =
            rootDomain (lit "www.google.com:443"))) :=
  ⟨by decide, rootDomain_idempotent_iff (lit "www.google.com:443")⟩

/-! ## C8: `Parse` on a single slash -/

/-- C8, the failing input: on the one-character line `/`, and on `@@/`, the slice
`str[1 : len(str)-1]` is `str[1:0]` and `Parse` stops with a run-time fault; the line
`//` parses to the regex rule of the empty pattern. -/
theorem parse_single_slash_faults :
    Parse (lit "/") = .fault ∧ Parse (lit "@@/") = .fault ∧
      slice (lit "/") 1 (((lit "/").length : Int) - 1) = none ∧
      Parse (lit "//") = .ok ⟨[], [.regexRule []]⟩ := by
  decide

/-! ## C9: `NewCIDRMatcher` -/

/-- C9, counterexample: for the 4-byte ip 10.0.0.0 and the mask width 33, larger than the
address width 32, NewCIDRMatcher returns a matcher and a nil error. -/
theorem newCIDRMatcher_no_error_on_wide_mask :
    33 > 8 * ([10, 0, 0, 0] : List Nat).length ∧
      (NewCIDRMatcher [10, 0, 0, 0] 33 false).2 = none ∧
      (NewCIDRMatcher [10, 0, 0, 0] 33 false).1 = some ⟨⟨[10, 0, 0, 0], []⟩, false⟩ := by
  decide

/-- C9, amended: NewCIDRMatcher(ip, mask, onSource) never returns an error: for every
input it returns a matcher for (ip, onSource) and a nil error.  Whenever the mask width
exceeds the address width (mask > 8*len(ip)) or len(ip) is neither 4 nor 16, the matcher
it returns has the nil mask and its Apply is false on every context. -/
theorem newCIDRMatcher_total (ip : List Nat) (mask : Nat) (onSource : Bool) :
    (NewCIDRMatcher ip mask onSource).2 = none ∧
      ∃ m, (NewCIDRMatcher ip mask onSource).1 = some m ∧ m.cidr.IP = ip ∧
        m.onSource = onSource ∧
        ((mask > 8 * ip.length ∨ (ip.length ≠ 4 ∧ ip.length ≠ 16)) →
          m.cidr.Mask = [] ∧ ∀ ctx, m.Apply ctx = false) := by
  refine ⟨rfl, _, rfl, rfl, rfl, ?_⟩
  intro h
  have hm := cidrMask_invalid ip mask h
  refine ⟨hm, ?_⟩
  intro ctx
  rw [apply_ips_eq, ← Bool.not_eq_true, anyContains_iff]
  rintro ⟨c, hc, hcont⟩
  have := contains_nil_mask ⟨ip, CIDRMask mask (ip.length * 8)⟩ hm c
    (candidate_length _ ctx c hc)
  rw [this] at hcont
  exact Bool.false_ne_true hcont

/-- C9, witness: the ip 10.0.0.0 with the mask width 33. -/
theorem newCIDRMatcher_total_witness :
    (NewCIDRMatcher [10, 0, 0, 0] 33 true).2 = none ∧
      ∃ m, (NewCIDRMatcher [10, 0, 0, 0] 33 true).1 = some m ∧ m.cidr.IP = [10, 0, 0, 0] ∧
        m.onSource = true ∧
        ((33 > 8 * ([10, 0, 0, 0] : List Nat).length ∨
            (([10, 0, 0, 0] : List Nat).length ≠ 4 ∧ ([10, 0, 0, 0] : List Nat).length ≠ 16)) →
          m.cidr.Mask = [] ∧ ∀ ctx, m.Apply ctx = false) :=
  newCIDRMatcher_total [10, 0, 0, 0] 33 true

/-! ## C10: coherence of the cache -/

/-- C10: for a GfwMatcher that starts with an empty cache, after any sequence of Apply
calls every cache entry (D, b) satisfies b == IsBlockedByGFW(D), and for every context
whose target is a domain D the next Apply returns exactly IsBlockedByGFW(D). -/
theorem gfw_cache_coherent (re : GoString → GoString → Bool) (g : GFWList)
    (ctxs : List Context) :
    (GfwMatcher.run re ⟨g, []⟩ ctxs).GFWList = g ∧
      (∀ D b, (D, b) ∈ (GfwMatcher.run re ⟨g, []⟩ ctxs).cache →
        b = IsBlockedByGFW re g D) ∧
      ∀ (ctx : Context) (dest : Destination) (D : GoString),
        ctx.target = some dest → dest.Address = .domain D →
          (GfwMatcher.Apply re (GfwMatcher.run re ⟨g, []⟩ ctxs) ctx).1 =
            IsBlockedByGFW re g D := by
  have h0 : CacheCoherent re ⟨g, []⟩ := by intro D b h; simp at h
  obtain ⟨hc, hg⟩ := run_coherent re ctxs ⟨g, []⟩ h0
  refine ⟨hg, ?_, ?_⟩
  · intro D b hmem
    have := hc D b hmem
    rwa [hg] at this
  · intro ctx dest D ht hd
    rw [apply_result re _ ctx hc dest D ht hd, hg]

/-- C10, witness: with the rule `||x.com`, the domain x.com is queried twice and y.com
once; the third query for x.com is answered from the cache with the verdict of
IsBlockedByGFW. -/
theorem gfw_cache_coherent_witness :
    (GfwMatcher.run noRegexp
        ⟨⟨[(lit "x.com", .hostWildcardRule (lit "x.com"))], []⟩, []⟩
        [domainTarget (lit "x.com"), domainTarget (lit "y.com"),
          domainTarget (lit "x.com")]).cache = [(lit "y.com", false), (lit "x.com", true)] ∧
      (GfwMatcher.Apply noRegexp
        (GfwMatcher.run noRegexp
          ⟨⟨[(lit "x.com", .hostWildcardRule (lit "x.com"))], []⟩, []⟩
          [domainTarget (lit "x.com"), domainTarget (lit "y.com"),
            domainTarget (lit "x.com")])
        (domainTarget (lit "x.com"))).1 =
        IsBlockedByGFW noRegexp ⟨[(lit "x.com", .hostWildcardRule (lit "x.com"))], []⟩
          (lit "x.com") :=
  ⟨by decide,
    (gfw_cache_coherent noRegexp ⟨[(lit "x.com", .hostWildcardRule (lit "x.com"))], []⟩
      [domainTarget (lit "x.com"), domainTarget (lit "y.com"),
        domainTarget (lit "x.com")]).2.2
      (domainTarget (lit "x.com")) ⟨.domain (lit "x.com"), 443, .TCP⟩ (lit "x.com") rfl rfl⟩

/-! ## Lemmas on the frame of `GfwMatcher.Apply` -/

theorem filter_of_lookup_none (l : List (GoString × Bool)) (k : GoString)
    (h : List.lookup k l = none) : l.filter (fun e => e.1 != k) = l := by
  induction l with
  | nil => rfl
  | cons e l ih =>
    obtain ⟨ek, ev⟩ := e
    rw [List.lookup_cons] at h
    by_cases hk : k = ek
    · subst hk; simp at h
    · have hne : (k == ek) = false := by simpa using hk
      rw [hne] at h
      have hne' : (ek != k) = true := by simpa using (Ne.symm hk)
      simp only [List.filter_cons, hne', if_true, ih h]

theorem apply_hit (re : GoString → GoString → Bool) (m : GfwMatcher) (ctx : Context)
    (dest : Destination) (D : GoString) (b : Bool)
    (ht : ctx.target = some dest) (hd : dest.Address = .domain D)
    (hl : List.lookup D m.cache = some b) :
    GfwMatcher.Apply re m ctx = (b, m) ∧ m.invocations ctx = [] := by
  unfold GfwMatcher.Apply GfwMatcher.invocations TargetFromContext
  simp [ht, hd, Address.Family, AddressFamily.IsDomain, Address.Domain, hl]

theorem apply_miss (re : GoString → GoString → Bool) (m : GfwMatcher) (ctx : Context)
    (dest : Destination) (D : GoString)
    (ht : ctx.target = some dest) (hd : dest.Address = .domain D)
    (hl : List.lookup D m.cache = none) :
    GfwMatcher.Apply re m ctx =
        (IsBlockedByGFW re m.GFWList D,
          { m with cache := (D, IsBlockedByGFW re m.GFWList D) :: m.cache }) ∧
      m.invocations ctx = [D] := by
  unfold GfwMatcher.Apply GfwMatcher.invocations TargetFromContext
  simp [ht, hd, Address.Family, AddressFamily.IsDomain, Address.Domain, hl,
    filter_of_lookup_none m.cache D hl]

theorem apply_not_domain (re : GoString → GoString → Bool) (m : GfwMatcher) (ctx : Context)
    (h : ∀ dest D, ctx.target = some dest → dest.Address ≠ .domain D) :
    GfwMatcher.Apply re m ctx = (false, m) := by
  unfold GfwMatcher.Apply TargetFromContext
  cases ht : ctx.target with
  | none => rfl
  | some dest =>
    simp only
    cases ha : dest.Address with
    | ipv4 ip len => simp [Address.Family, AddressFamily.IsDomain]
    | ipv6 ip len => simp [Address.Family, AddressFamily.IsDomain]
    | domain D => exact absurd ha (h dest D ht)

theorem apply_keeps_entries (re : GoString → GoString → Bool) (m : GfwMatcher)
    (ctx : Context) (D : GoString) (b : Bool) (h : List.lookup D m.cache = some b) :
    List.lookup D (GfwMatcher.Apply re m ctx).2.cache = some b := by
  by_cases hd : ∃ dest D', ctx.target = some dest ∧ dest.Address = .domain D'
  · obtain ⟨dest, D', ht, ha⟩ := hd
    cases hl : List.lookup D' m.cache with
    | some b' => rw [(apply_hit re m ctx dest D' b' ht ha hl).1]; exact h
    | none =>
      rw [(apply_miss re m ctx dest D' ht ha hl).1]
      have hne : D ≠ D' := by
        intro e; subst e; rw [hl] at h; simp at h
      have hne' : (D == D') = false := by simpa using hne
      simp only [List.lookup_cons, hne']
      exact h
  · rw [apply_not_domain re m ctx (fun dest D' ht ha => hd ⟨dest, D', ht, ha⟩)]
    exact h

theorem run_keeps_entries (re : GoString → GoString → Bool) (ctxs : List Context) :
    ∀ (m : GfwMatcher) (D : GoString) (b : Bool), List.lookup D m.cache = some b →
      List.lookup D (GfwMatcher.run re m ctxs).cache = some b := by
  induction ctxs with
  | nil => intro m D b h; exact h
  | cons ctx rest ih =>
    intro m D b h
    unfold GfwMatcher.run
    exact ih _ D b (apply_keeps_entries re m ctx D b h)

/-! ## C11: the frame of `GfwMatcher.Apply` -/

/-- C11: for every GfwMatcher state and every context with domain target D: if D is in
the cache, Apply returns the stored value, invokes IsBlockedByGFW not at all and leaves
the matcher unchanged; if D is not in the cache, Apply invokes IsBlockedByGFW once, for
D, and the cache after the call is the cache before it with the one entry for D added.
So a second query for the same domain invokes IsBlockedByGFW not at all, and every entry
of the cache is still there, with its value, after the call and after any sequence of
further calls. -/
theorem gfw_apply_frame (re : GoString → GoString → Bool) (m : GfwMatcher) (ctx : Context)
    (dest : Destination) (D : GoString)
    (ht : ctx.target = some dest) (hd : dest.Address = .domain D) :
    (∀ b, List.lookup D m.cache = some b →
        GfwMatcher.Apply re m ctx = (b, m) ∧ m.invocations ctx = []) ∧
      (List.lookup D m.cache = none →
        GfwMatcher.Apply re m ctx =
            (IsBlockedByGFW re m.GFWList D,
              { m with cache := (D, IsBlockedByGFW re m.GFWList D) :: m.cache }) ∧
          m.invocations ctx = [D]) ∧
      ((GfwMatcher.Apply re m ctx).2.invocations ctx = [] ∧
        GfwMatcher.Apply re (GfwMatcher.Apply re m ctx).2 ctx = GfwMatcher.Apply re m ctx) ∧
      (∀ e ∈ m.cache, e ∈ (GfwMatcher.Apply re m ctx).2.cache) ∧
      (∀ D' b, List.lookup D' m.cache = some b →
        List.lookup D' (GfwMatcher.Apply re m ctx).2.cache = some b) ∧
      (∀ (ctxs : List Context) D' b, List.lookup D' m.cache = some b →
        List.lookup D' (GfwMatcher.run re m ctxs).cache = some b) := by
  refine ⟨fun b hl => apply_hit re m ctx dest D b ht hd hl,
    fun hl => apply_miss re m ctx dest D ht hd hl, ?_, ?_,
    fun D' b hb => apply_keeps_entries re m ctx D' b hb,
    fun ctxs D' b hb => run_keeps_entries re ctxs m D' b hb⟩
  · cases hl : List.lookup D m.cache with
    | some b =>
      have h := apply_hit re m ctx dest D b ht hd hl
      rw [h.1]
      exact ⟨h.2, h.1⟩
    | none =>
      have h := apply_miss re m ctx dest D ht hd hl
      rw [h.1]
      have hl' : List.lookup D
          ({ m with cache := (D, IsBlockedByGFW re m.GFWList D) :: m.cache } :
            GfwMatcher).cache = some (IsBlockedByGFW re m.GFWList D) := by
        simp
      have h2 := apply_hit re _ ctx dest D _ ht hd hl'
      exact ⟨h2.2, h2.1⟩
  · intro e he
    cases hl : List.lookup D m.cache with
    | some b => rw [(apply_hit re m ctx dest D b ht hd hl).1]; exact he
    | none =>
      rw [(apply_miss re m ctx dest D ht hd hl).1]
      exact List.mem_cons_of_mem _ he

/-- C11, witness: with the rule `||x.com`, the first query for x.com invokes
IsBlockedByGFW once and stores the verdict, the second query invokes it not at all and
leaves the cache as it is, and a query for y.com in between adds its own entry only. -/
theorem gfw_apply_frame_witness :
    GfwMatcher.invocations ⟨⟨[(lit "x.com", .hostWildcardRule (lit "x.com"))], []⟩, []⟩
        (domainTarget (lit "x.com")) = [lit "x.com"] ∧
      GfwMatcher.Apply noRegexp ⟨⟨[(lit "x.com", .hostWildcardRule (lit "x.com"))], []⟩, []⟩
        (domainTarget (lit "x.com")) =
          (true, ⟨⟨[(lit "x.com", .hostWildcardRule (lit "x.com"))], []⟩,
            [(lit "x.com", true)]⟩) ∧
      GfwMatcher.Apply noRegexp
        ⟨⟨[(lit "x.com", .hostWildcardRule (lit "x.com"))], []⟩, [(lit "x.com", true)]⟩
        (domainTarget (lit "y.com")) =
          (false, ⟨⟨[(lit "x.com", .hostWildcardRule (lit "x.com"))], []⟩,
            [(lit "y.com", false), (lit "x.com", true)]⟩) ∧
      (GfwMatcher.Apply noRegexp
          ⟨⟨[(lit "x.com", .hostWildcardRule (lit "x.com"))], []⟩,
            [(lit "y.com", false), (lit "x.com", true)]⟩
          (domainTarget (lit "x.com")) =
          (true, ⟨⟨[(lit "x.com", .hostWildcardRule (lit "x.com"))], []⟩,
            [(lit "y.com", false), (lit "x.com", true)]⟩) ∧
        GfwMatcher.invocations
          ⟨⟨[(lit "x.com", .hostWildcardRule (lit "x.com"))], []⟩,
            [(lit "y.com", false), (lit "x.com", true)]⟩
          (domainTarget (lit "x.com")) = []) :=
  ⟨by decide, by decide, by decide,
    (gfw_apply_frame noRegexp
      ⟨⟨[(lit "x.com", .hostWildcardRule (lit "x.com"))], []⟩,
        [(lit "y.com", false), (lit "x.com", true)]⟩
      (domainTarget (lit "x.com")) ⟨.domain (lit "x.com"), 443, .TCP⟩ (lit "x.com")
      rfl rfl).1 true (by decide)⟩

/-! ## Lemmas on the combinators -/

theorem foldl_add_chan {S : Type} (cs : List (Condition S)) (acc : ConditionChan S) :
    cs.foldl ConditionChan.Add acc = acc ++ cs := by
  induction cs generalizing acc with
  | nil => simp
  | cons c cs ih => simp [List.foldl_cons, ih, ConditionChan.Add]

theorem foldl_add_any {S : Type} (cs : List (Condition S)) (acc : AnyCondition S) :
    cs.foldl AnyCondition.Add acc = acc ++ cs := by
  induction cs generalizing acc with
  | nil => simp
  | cons c cs ih => simp [List.foldl_cons, ih, AnyCondition.Add]

theorem childResult_zero {S : Type} (c : Condition S) (cs : List (Condition S))
    (ctx : Context) (s : S) : childResult (c :: cs) ctx s 0 = some (c ctx s).1 := by
  simp [childResult, applyInOrder]

theorem childResult_succ {S : Type} (c : Condition S) (cs : List (Condition S))
    (ctx : Context) (s : S) (k : Nat) :
    childResult (c :: cs) ctx s (k + 1) = childResult cs ctx (c ctx s).2 k := by
  simp [childResult, applyInOrder]

theorem chan_apply_iff {S : Type} (cs : List (Condition S)) (ctx : Context) :
    ∀ s : S, (ConditionChan.Apply cs ctx s).1 = true ↔
      ∀ k, k < cs.length → childResult cs ctx s k = some true := by
  induction cs with
  | nil => intro s; simp [ConditionChan.Apply]
  | cons c cs ih =>
    intro s
    unfold ConditionChan.Apply
    cases hc : (c ctx s).1 with
    | false =>
      simp only [hc, Bool.not_false, if_true, Bool.false_eq_true, false_iff]
      intro h
      have := h 0 (by simp)
      rw [childResult_zero, hc] at this
      simp at this
    | true =>
      simp only [hc, Bool.not_true, Bool.false_eq_true, if_false]
      rw [ih]
      constructor
      · intro h k hk
        cases k with
        | zero => rw [childResult_zero, hc]
        | succ k => rw [childResult_succ]; exact h k (by simpa using hk)
      · intro h k hk
        have := h (k + 1) (by simpa using hk)
        rwa [childResult_succ] at this

theorem any_apply_iff {S : Type} (cs : List (Condition S)) (ctx : Context) :
    ∀ s : S, (AnyCondition.Apply cs ctx s).1 = true ↔
      ∃ k, k < cs.length ∧ childResult cs ctx s k = some true := by
  induction cs with
  | nil => intro s; simp [AnyCondition.Apply]
  | cons c cs ih =>
    intro s
    unfold AnyCondition.Apply
    cases hc : (c ctx s).1 with
    | true =>
      simp only [hc, if_true, true_iff]
      exact ⟨0, by simp, by rw [childResult_zero, hc]⟩
    | false =>
      simp only [hc, Bool.false_eq_true, if_false]
      rw [ih]
      constructor
      · rintro ⟨k, hk, h⟩
        exact ⟨k + 1, by simpa using hk, by rwa [childResult_succ]⟩
      · rintro ⟨k, hk, h⟩
        cases k with
        | zero => rw [childResult_zero, hc] at h; simp at h
        | succ k =>
          rw [childResult_succ] at h
          exact ⟨k, by simpa using hk, h⟩

theorem childResult_stateFree {S : Type} (cs : List (Condition S)) (ctx : Context) (s : S)
    (hfree : ∀ c ∈ cs, StateFree c ctx) (k : Nat) :
    childResult cs ctx s k = (cs.get? k).map (fun c => (c ctx s).1) := by
  unfold childResult
  cases h : cs.get? k with
  | none => rfl
  | some c =>
    simp only [Option.map_some', Option.some.injEq]
    exact hfree c (List.get?_mem h) _ _

theorem all_children_iff {S : Type} (cs : List (Condition S)) (ctx : Context) (s : S)
    (hfree : ∀ c ∈ cs, StateFree c ctx) :
    (∀ k, k < cs.length → childResult cs ctx s k = some true) ↔
      ∀ c ∈ cs, (c ctx s).1 = true := by
  constructor
  · intro h c hc
    obtain ⟨k, hk, rfl⟩ := List.getElem_of_mem hc
    have := h k hk
    rw [childResult_stateFree cs ctx s hfree, List.get?_eq_getElem?,
      List.getElem?_eq_getElem hk] at this
    simpa using this
  · intro h k hk
    rw [childResult_stateFree cs ctx s hfree, List.get?_eq_getElem?,
      List.getElem?_eq_getElem hk]
    simp [h _ (List.getElem_mem hk)]

theorem some_child_iff {S : Type} (cs : List (Condition S)) (ctx : Context) (s : S)
    (hfree : ∀ c ∈ cs, StateFree c ctx) :
    (∃ k, k < cs.length ∧ childResult cs ctx s k = some true) ↔
      ∃ c ∈ cs, (c ctx s).1 = true := by
  constructor
  · rintro ⟨k, hk, h⟩
    rw [childResult_stateFree cs ctx s hfree, List.get?_eq_getElem?,
      List.getElem?_eq_getElem hk] at h
    exact ⟨cs[k], List.getElem_mem hk, by simpa using h⟩
  · rintro ⟨c, hc, h⟩
    obtain ⟨k, hk, rfl⟩ := List.getElem_of_mem hc
    refine ⟨k, hk, ?_⟩
    rw [childResult_stateFree cs ctx s hfree, List.get?_eq_getElem?,
      List.getElem?_eq_getElem hk]
    simp [h]

theorem chan_stops_at_first_false {S : Type} (cs : List (Condition S)) (ctx : Context) :
    ∀ (s : S) (i : Nat), childResult cs ctx s i = some false →
      (∀ k, k < i → childResult cs ctx s k = some true) →
      ConditionChan.Apply cs ctx s = (false, applyInOrder (cs.take (i + 1)) ctx s) ∧
        ConditionChan.evaluated cs ctx s = List.range (i + 1) := by
  induction cs with
  | nil => intro s i h; simp [childResult] at h
  | cons c cs ih =>
    intro s i hi hbefore
    unfold ConditionChan.Apply ConditionChan.evaluated
    cases i with
    | zero =>
      rw [childResult_zero] at hi
      simp only [Option.some.injEq] at hi
      simp only [hi, Bool.not_false, if_true]
      exact ⟨by simp [applyInOrder], rfl⟩
    | succ i =>
      have h0 := hbefore 0 (by omega)
      rw [childResult_zero] at h0
      simp only [Option.some.injEq] at h0
      rw [childResult_succ] at hi
      have hb : ∀ k, k < i → childResult cs ctx (c ctx s).2 k = some true := by
        intro k hk
        have := hbefore (k + 1) (by omega)
        rwa [childResult_succ] at this
      obtain ⟨h1, h2⟩ := ih (c ctx s).2 i hi hb
      simp only [h0, Bool.not_true, Bool.false_eq_true, if_false, h1, h2]
      refine ⟨by simp [applyInOrder], ?_⟩
      rw [List.range_succ_eq_map (i + 1)]

/-! ## C12: the combinators -/

/-- C12: for every list of child conditions added in order with Add, every context and
every state, ConditionChan.Apply returns true iff every child's Apply returns true, and
AnyCondition.Apply returns true iff at least one child's Apply returns true, each child
being applied in the state the children before it leave; when the results of the
children do not depend on the state, this is: every child, respectively some child,
returns true on the context.  The empty ConditionChan returns true and the empty
AnyCondition returns false. -/
theorem combinators_all_any {S : Type} (cs : List (Condition S)) (ctx : Context) (s : S) :
    cs.foldl ConditionChan.Add NewConditionChan = cs ∧
      cs.foldl AnyCondition.Add NewAnyCondition = cs ∧
      ((ConditionChan.Apply (cs.foldl ConditionChan.Add NewConditionChan) ctx s).1 = true ↔
        ∀ k, k < cs.length → childResult cs ctx s k = some true) ∧
      ((AnyCondition.Apply (cs.foldl AnyCondition.Add NewAnyCondition) ctx s).1 = true ↔
        ∃ k, k < cs.length ∧ childResult cs ctx s k = some true) ∧
      ((∀ c ∈ cs, StateFree c ctx) →
        ((ConditionChan.Apply (cs.foldl ConditionChan.Add NewConditionChan) ctx s).1 = true ↔
          ∀ c ∈ cs, (c ctx s).1 = true) ∧
        ((AnyCondition.Apply (cs.foldl AnyCondition.Add NewAnyCondition) ctx s).1 = true ↔
          ∃ c ∈ cs, (c ctx s).1 = true)) ∧
      ConditionChan.Apply NewConditionChan ctx s = (true, s) ∧
      AnyCondition.Apply NewAnyCondition ctx s = (false, s) := by
  have h1 : cs.foldl ConditionChan.Add NewConditionChan = cs := by
    rw [foldl_add_chan]; rfl
  have h2 : cs.foldl AnyCondition.Add NewAnyCondition = cs := by
    rw [foldl_add_any]; rfl
  rw [h1, h2]
  refine ⟨rfl, rfl, chan_apply_iff cs ctx s, any_apply_iff cs ctx s, ?_, rfl, rfl⟩
  intro hfree
  exact ⟨(chan_apply_iff cs ctx s).trans (all_children_iff cs ctx s hfree),
    (any_apply_iff cs ctx s).trans (some_child_iff cs ctx s hfree)⟩

/-- C12, witness: All-of(Port 443-443, SubDomain example.com) is true on the target
api.example.com:443 and false on api.example.com:80; Any-of of the same children is true
on both. -/
theorem combinators_all_any_witness :
    (ConditionChan.Apply
        ([Condition.ofPure (PortMatcher.Apply (NewPortMatcher ⟨443, 443⟩)),
          Condition.ofPure
            (fun ctx => SubDomainMatcher.Apply (lit "example.com") ctx == some true)] :
          ConditionChan Unit)
        (domainPortTarget (lit "api.example.com") 443) ()).1 = true ∧
      (ConditionChan.Apply
        ([Condition.ofPure (PortMatcher.Apply (NewPortMatcher ⟨443, 443⟩)),
          Condition.ofPure
            (fun ctx => SubDomainMatcher.Apply (lit "example.com") ctx == some true)] :
          ConditionChan Unit)
        (domainPortTarget (lit "api.example.com") 80) ()).1 = false ∧
      (AnyCondition.Apply
        ([Condition.ofPure (PortMatcher.Apply (NewPortMatcher ⟨443, 443⟩)),
          Condition.ofPure
            (fun ctx => SubDomainMatcher.Apply (lit "example.com") ctx == some true)] :
          AnyCondition Unit)
        (domainPortTarget (lit "api.example.com") 80) ()).1 = true ∧
      ((ConditionChan.Apply
          (([Condition.ofPure (PortMatcher.Apply (NewPortMatcher ⟨443, 443⟩)),
            Condition.ofPure
              (fun ctx => SubDomainMatcher.Apply (lit "example.com") ctx == some true)] :
            List (Condition Unit)).foldl ConditionChan.Add NewConditionChan)
          (domainPortTarget (lit "api.example.com") 443) ()).1 = true ↔
        ∀ c ∈ ([Condition.ofPure (PortMatcher.Apply (NewPortMatcher ⟨443, 443⟩)),
            Condition.ofPure
              (fun ctx => SubDomainMatcher.Apply (lit "example.com") ctx == some true)] :
            List (Condition Unit)),
          (c (domainPortTarget (lit "api.example.com") 443) ()).1 = true) :=
  ⟨by decide, by decide, by decide,
    ((combinators_all_any
      ([Condition.ofPure (PortMatcher.Apply (NewPortMatcher ⟨443, 443⟩)),
        Condition.ofPure
          (fun ctx => SubDomainMatcher.Apply (lit "example.com") ctx == some true)] :
        List (Condition Unit))
      (domainPortTarget (lit "api.example.com") 443) ()).2.2.2.2.1
        (fun _ _ _ _ => rfl)).1⟩

/-! ## C13: the conjunction stops at the first false -/

/-- C13: for every ConditionChan whose first child returning false is at position i,
Apply calls the children at the positions 0..i in this order and no child after i, it
returns false, and the state after Apply is the state after the children 0..i have been
applied in order: the children after i have changed nothing. -/
theorem chan_short_circuit {S : Type} (cs : ConditionChan S) (ctx : Context) (s : S)
    (i : Nat) (hi : childResult cs ctx s i = some false)
    (hbefore : ∀ k, k < i → childResult cs ctx s k = some true) :
    ConditionChan.evaluated cs ctx s = List.range (i + 1) ∧
      ConditionChan.Apply cs ctx s = (false, applyInOrder (cs.take (i + 1)) ctx s) := by
  obtain ⟨h1, h2⟩ := chan_stops_at_first_false cs ctx s i hi hbefore
  exact ⟨h2, h1⟩

/-- C13, witness: in All-of(Port 443-443, Gfw) on the target x.com:80 the port matcher
is false, the GFW matcher is not called and its cache stays empty; with the children in
the other order the GFW matcher is called first and its cache gets the entry for x.com. -/
theorem chan_short_circuit_witness :
    ConditionChan.Apply
        [Condition.ofGfw noRegexp,
          Condition.ofPure (PortMatcher.Apply (NewPortMatcher ⟨443, 443⟩))]
        (domainPortTarget (lit "x.com") 80)
        ⟨⟨[(lit "x.com", .hostWildcardRule (lit "x.com"))], []⟩, []⟩ =
        (false, ⟨⟨[(lit "x.com", .hostWildcardRule (lit "x.com"))], []⟩,
          [(lit "x.com", true)]⟩) ∧
      applyInOrder
        ([Condition.ofPure (PortMatcher.Apply (NewPortMatcher ⟨443, 443⟩)),
          Condition.ofGfw noRegexp].take (0 + 1))
        (domainPortTarget (lit "x.com") 80)
        ⟨⟨[(lit "x.com", .hostWildcardRule (lit "x.com"))], []⟩, []⟩ =
        ⟨⟨[(lit "x.com", .hostWildcardRule (lit "x.com"))], []⟩, []⟩ ∧
      (ConditionChan.evaluated
          [Condition.ofPure (PortMatcher.Apply (NewPortMatcher ⟨443, 443⟩)),
            Condition.ofGfw noRegexp]
          (domainPortTarget (lit "x.com") 80)
          ⟨⟨[(lit "x.com", .hostWildcardRule (lit "x.com"))], []⟩, []⟩ =
          List.range (0 + 1) ∧
        ConditionChan.Apply
          [Condition.ofPure (PortMatcher.Apply (NewPortMatcher ⟨443, 443⟩)),
            Condition.ofGfw noRegexp]
          (domainPortTarget (lit "x.com") 80)
          ⟨⟨[(lit "x.com", .hostWildcardRule (lit "x.com"))], []⟩, []⟩ =
          (false, applyInOrder
            ([Condition.ofPure (PortMatcher.Apply (NewPortMatcher ⟨443, 443⟩)),
              Condition.ofGfw noRegexp].take (0 + 1))
            (domainPortTarget (lit "x.com") 80)
            ⟨⟨[(lit "x.com", .hostWildcardRule (lit "x.com"))], []⟩, []⟩)) :=
  ⟨by decide, by decide,
    chan_short_circuit
      [Condition.ofPure (PortMatcher.Apply (NewPortMatcher ⟨443, 443⟩)),
        Condition.ofGfw noRegexp]
      (domainPortTarget (lit "x.com") 80)
      ⟨⟨[(lit "x.com", .hostWildcardRule (lit "x.com"))], []⟩, []⟩ 0
      (by decide) (fun k hk => absurd hk (Nat.not_lt_zero k))⟩

/-! ## Lemmas on the other atomic matchers -/

theorem collectIPv4_eq (ips : List (List Nat)) (l : List Address) :
    collectIPv4 ips l =
      ips ++ (l.filter (fun a => a.Family = AddressFamily.IPv4)).map Address.IP := by
  induction l generalizing ips with
  | nil => simp [collectIPv4]
  | cons a l ih =>
    unfold collectIPv4
    by_cases h : a.Family = AddressFamily.IPv4
    · simp [AddressFamily.IsIPv4, h, ih, List.filter_cons]
    · simp [AddressFamily.IsIPv4, h, ih, List.filter_cons]

theorem anyInTable_iff (t : IPNetTable) (ips : List (List Nat)) :
    anyInTable t ips = true ↔ ∃ ip ∈ ips, t.Contains ip = true := by
  induction ips with
  | nil => simp [anyInTable]
  | cons ip rest ih =>
    unfold anyInTable
    by_cases h : t.Contains ip = true
    · simp [h]
    · simp [h, ih]

theorem ipv4_apply_iff (v : IPv4Matcher) (ctx : Context) :
    v.Apply ctx = true ↔
      ∃ ip ∈ candidateIPs .IPv4 v.onSource ctx, v.ipv4net.Contains ip = true := by
  rw [← anyInTable_iff]
  unfold IPv4Matcher.Apply candidateIPs ResolvedIPsFromContext SourceFromContext
    TargetFromContext
  cases hr : ctx.resolvedIPs <;>
    cases hd : (if v.onSource = true then ctx.source else ctx.target) <;>
    simp [collectIPv4_eq, AddressFamily.IsIPv4]
  split <;> simp

theorem copyNonEmpty_eq (acc l : List GoString) :
    copyNonEmpty acc l = acc ++ l.filter (fun s => decide (s ≠ [])) := by
  induction l generalizing acc with
  | nil => simp [copyNonEmpty]
  | cons s rest ih =>
    unfold copyNonEmpty
    by_cases h : s = []
    · subst h; simp [ih]
    · have hpos : s.length > 0 := List.length_pos.mpr h
      simp [hpos, h, ih, List.filter_cons]

theorem anyEqual_iff (x : GoString) (l : List GoString) :
    anyEqual x l = true ↔ x ∈ l := by
  induction l with
  | nil => simp [anyEqual]
  | cons u rest ih =>
    unfold anyEqual
    by_cases h : u = x
    · simp [h]
    · have h' : ¬ x = u := fun e => h e.symm
      simp [h, h', ih]

/-! ## C14: the empty context -/

/-- C14: for every atomic matcher (PlainDomain, RegexpDomain, SubDomain, Gfw, CIDR, IPv4,
Port, Network, User, InboundTag) with any configuration, Apply on the empty context
returns false; the GFW matcher invokes nothing and keeps its cache. -/
theorem empty_context_false (p : GoString) (ToLower : GoString → GoString)
    (r : RegexpDomainMatcher) (re : GoString → GoString → Bool) (g : GfwMatcher)
    (c : CIDRMatcher) (v4 : IPv4Matcher) (pm : PortMatcher) (nm : NetworkMatcher)
    (um : UserMatcher) (tm : InboundTagMatcher) :
    PlainDomainMatcher.Apply p Context.empty = false ∧
      RegexpDomainMatcher.Apply ToLower r Context.empty = false ∧
      SubDomainMatcher.Apply p Context.empty = some false ∧
      GfwMatcher.Apply re g Context.empty = (false, g) ∧
      c.Apply Context.empty = false ∧
      v4.Apply Context.empty = false ∧
      pm.Apply Context.empty = false ∧
      nm.Apply Context.empty = false ∧
      um.Apply Context.empty = false ∧
      tm.Apply Context.empty = false := by
  refine ⟨rfl, rfl, rfl, rfl, ?_, ?_, rfl, rfl, rfl, rfl⟩
  · cases hs : c.onSource <;>
      simp [CIDRMatcher.Apply, Context.empty, ResolvedIPsFromContext, SourceFromContext,
        TargetFromContext, anyContains, hs]
  · cases hs : v4.onSource <;>
      simp [IPv4Matcher.Apply, Context.empty, ResolvedIPsFromContext, SourceFromContext,
        TargetFromContext, anyInTable, hs]

/-! ## C15: `IPv4Matcher` and the resolved IPs -/

theorem candidateIPs_addResolved (fam : AddressFamily) (onSource : Bool) (ctx : Context)
    (i : Nat) (a : Address) (ip : List Nat) :
    ip ∈ candidateIPs fam onSource (addResolved ctx i a) ↔
      ip ∈ candidateIPs fam onSource ctx ∨ (a.Family = fam ∧ ip = a.IP) := by
  unfold candidateIPs addResolved
  simp only [Option.getD_some, List.mem_append, List.mem_map, List.mem_filter,
    List.mem_cons, decide_eq_true_eq]
  constructor
  · rintro (⟨x, ⟨(hx | rfl | hx), hf⟩, rfl⟩ | h)
    · exact Or.inl (Or.inl ⟨x, ⟨List.mem_of_mem_take hx, hf⟩, rfl⟩)
    · exact Or.inr ⟨hf, rfl⟩
    · exact Or.inl (Or.inl ⟨x, ⟨List.mem_of_mem_drop hx, hf⟩, rfl⟩)
    · exact Or.inl (Or.inr h)
  · rintro ((⟨x, ⟨hx, hf⟩, rfl⟩ | h) | ⟨hf, rfl⟩)
    · left
      refine ⟨x, ⟨?_, hf⟩, rfl⟩
      rw [← List.take_append_drop i (ctx.resolvedIPs.getD [])] at hx
      rcases List.mem_append.mp hx with hx | hx
      · exact Or.inl hx
      · exact Or.inr (Or.inr hx)
    · exact Or.inr h
    · exact Or.inl ⟨a, ⟨Or.inr (Or.inl rfl), hf⟩, rfl⟩

/-- C15: for every IPv4Matcher, every context ctx and every IPv4 address a, put anywhere
among the resolved IPs: if a is contained in the matcher's table then Apply on ctx with a
added is true; and if Apply(ctx) is true then Apply stays true after adding any address
to the resolved IPs. -/
theorem ipv4_apply_monotonic (v : IPv4Matcher) (ctx : Context) (i : Nat) (a : Address) :
    (a.Family = .IPv4 → v.ipv4net.Contains a.IP = true →
        v.Apply (addResolved ctx i a) = true) ∧
      (v.Apply ctx = true → v.Apply (addResolved ctx i a) = true) := by
  constructor
  · intro hf hc
    rw [ipv4_apply_iff]
    exact ⟨a.IP, (candidateIPs_addResolved _ _ ctx i a _).mpr (Or.inr ⟨hf, rfl⟩), hc⟩
  · intro h
    rw [ipv4_apply_iff] at h ⊢
    obtain ⟨ip, hip, hc⟩ := h
    exact ⟨ip, (candidateIPs_addResolved _ _ ctx i a _).mpr (Or.inl hip), hc⟩

/-- C15, witness: a table that contains exactly 10.1.2.3; the target domain x with the
resolved IP 11.1.2.3 does not match, and matches once 10.1.2.3 is added. -/
theorem ipv4_apply_monotonic_witness :
    (NewIPv4Matcher ⟨fun ip => ip == [10, 1, 2, 3]⟩ false).Apply
        (resolvedTarget (lit "x") [.ipv4 [11, 1, 2, 3] rfl]) = false ∧
      (NewIPv4Matcher ⟨fun ip => ip == [10, 1, 2, 3]⟩ false).Apply
        (addResolved (resolvedTarget (lit "x") [.ipv4 [11, 1, 2, 3] rfl]) 1
          (.ipv4 [10, 1, 2, 3] rfl)) = true ∧
      (NewIPv4Matcher ⟨fun ip => ip == [10, 1, 2, 3]⟩ false).Apply
        (addResolved (resolvedTarget (lit "x") [.ipv4 [11, 1, 2, 3] rfl]) 0
          (.ipv4 [10, 1, 2, 3] rfl)) = true :=
  ⟨by decide, by decide,
    (ipv4_apply_monotonic (NewIPv4Matcher ⟨fun ip => ip == [10, 1, 2, 3]⟩ false)
      (resolvedTarget (lit "x") [.ipv4 [11, 1, 2, 3] rfl]) 0
      (.ipv4 [10, 1, 2, 3] rfl)).1 rfl rfl⟩

/-! ## C18: `UserMatcher` -/

/-- C18: for every list L of strings and every context, NewUserMatcher(L).Apply returns
true iff the context carries a user whose email equals one of the entries of L that
remain after the empty entries are stripped; a missing user gives false, and a user with
an empty email never matches, even when L contains the empty string. -/
theorem user_apply_iff (L : List GoString) (ctx : Context) :
    (NewUserMatcher L).user = L.filter (fun s => decide (s ≠ [])) ∧
      ((NewUserMatcher L).Apply ctx = true ↔
        ∃ u, ctx.user = some u ∧ u.Email ∈ L.filter (fun s => decide (s ≠ []))) ∧
      (ctx.user = none → (NewUserMatcher L).Apply ctx = false) ∧
      (∀ u, ctx.user = some u → u.Email = [] → (NewUserMatcher L).Apply ctx = false) := by
  have hu : (NewUserMatcher L).user = L.filter (fun s => decide (s ≠ [])) := by
    simp [NewUserMatcher, copyNonEmpty_eq]
  have hiff : (NewUserMatcher L).Apply ctx = true ↔
      ∃ u, ctx.user = some u ∧ u.Email ∈ L.filter (fun s => decide (s ≠ [])) := by
    unfold UserMatcher.Apply UserFromContext
    rw [hu]
    cases h : ctx.user with
    | none => simp
    | some u => simp only [anyEqual_iff]; simp
  refine ⟨hu, hiff, ?_, ?_⟩
  · intro h
    rw [← Bool.not_eq_true, hiff, h]
    simp
  · intro u h he
    rw [← Bool.not_eq_true, hiff, h]
    rintro ⟨u', hu', hmem⟩
    simp only [Option.some.injEq] at hu'
    subst hu'
    rw [he] at hmem
    simp at hmem

/-- C18, witness: L = ["", "a@b"]: the user a@b matches, the user with the empty email, the
user c@d and the missing user do not. -/
theorem user_apply_iff_witness :
    (NewUserMatcher [lit "", lit "a@b"]).user = [lit "a@b"] ∧
      (NewUserMatcher [lit "", lit "a@b"]).Apply
        { Context.empty with user := some ⟨lit "a@b"⟩ } = true ∧
      (NewUserMatcher [lit "", lit "a@b"]).Apply
        { Context.empty with user := some ⟨lit "c@d"⟩ } = false ∧
      (NewUserMatcher [lit "", lit "a@b"]).Apply Context.empty = false ∧
      (NewUserMatcher [lit "", lit "a@b"]).Apply
        { Context.empty with user := some ⟨lit ""⟩ } = false :=
  ⟨by decide, by decide, by decide, by decide,
    (user_apply_iff [lit "", lit "a@b"] { Context.empty with user := some ⟨lit ""⟩ }).2.2.2
      ⟨lit ""⟩ rfl rfl⟩

/-! ## C19: `SubDomainMatcher.Apply` is total -/

/-- C19: for every pattern P and every context (every domain D, the empty pattern, the
empty domain and P longer than D included), SubDomainMatcher.Apply returns a boolean; the
byte at index len(D)-len(P)-1 is read only when D ends with P and is longer than P, and
the index then lies in 0..len(D)-1. -/
theorem subdomain_apply_total (P : GoString) (ctx : Context) :
    (∃ b, SubDomainMatcher.Apply P ctx = some b) ∧
      ∀ D : GoString, HasSuffix D P = true → D.length ≠ P.length →
        0 ≤ (D.length : Int) - (P.length : Int) - 1 ∧
          (D.length : Int) - (P.length : Int) - 1 < (D.length : Int) ∧
          ∃ c, byteAt D ((D.length : Int) - (P.length : Int) - 1) = some c := by
  have hidx : ∀ D : GoString, HasSuffix D P = true → D.length ≠ P.length →
      0 ≤ (D.length : Int) - (P.length : Int) - 1 ∧
        (D.length : Int) - (P.length : Int) - 1 < (D.length : Int) ∧
        ∃ c, byteAt D ((D.length : Int) - (P.length : Int) - 1) = some c := by
    intro D hs hl
    have hle : P.length ≤ D.length := ((hasSuffix_iff D P).mp hs).length_le
    have h1 : (0 : Int) ≤ (D.length : Int) - (P.length : Int) - 1 := by omega
    have h2 : (D.length : Int) - (P.length : Int) - 1 < (D.length : Int) := by omega
    refine ⟨h1, h2, ?_⟩
    unfold byteAt
    rw [if_pos ⟨h1, h2⟩]
    have : ((D.length : Int) - (P.length : Int) - 1).toNat < D.length := by omega
    exact ⟨_, List.get?_eq_get this⟩
  refine ⟨?_, hidx⟩
  unfold SubDomainMatcher.Apply
  cases ht : TargetFromContext ctx with
  | none => exact ⟨false, rfl⟩
  | some dest =>
    simp only
    by_cases hd : (!dest.Address.Family.IsDomain) = true
    · rw [if_pos hd]; exact ⟨false, rfl⟩
    · rw [if_neg hd]
      by_cases hs : (!HasSuffix dest.Address.Domain P) = true
      · simp only [hs, if_true]; exact ⟨false, rfl⟩
      · simp only [hs]
        by_cases hl : dest.Address.Domain.length = P.length
        · simp only [hl, if_true]; exact ⟨true, by simp⟩
        · have hs' : HasSuffix dest.Address.Domain P = true := by simpa using hs
          obtain ⟨_, _, c, hc⟩ := hidx dest.Address.Domain hs' hl
          simp only [hl, hc]
          exact ⟨c == 46, by simp⟩

/-- C19, witness: the pattern example.com on the domain a.example.com reads the byte at
index 1; the empty pattern, the empty domain and a pattern longer than the domain give
a boolean without any read. -/
theorem subdomain_apply_total_witness :
    SubDomainMatcher.Apply (lit "") (domainTarget (lit "a.com")) = some false ∧
      SubDomainMatcher.Apply (lit "") (domainTarget (lit "")) = some true ∧
      SubDomainMatcher.Apply (lit "a.com") (domainTarget (lit "")) = some false ∧
      SubDomainMatcher.Apply (lit "www.a.com") (domainTarget (lit "a.com")) = some false ∧
      (0 ≤ ((lit "a.example.com").length : Int) - ((lit "example.com").length : Int) - 1 ∧
        ((lit "a.example.com").length : Int) - ((lit "example.com").length : Int) - 1 <
          ((lit "a.example.com").length : Int) ∧
        ∃ c, byteAt (lit "a.example.com")
          (((lit "a.example.com").length : Int) - ((lit "example.com").length : Int) - 1) =
            some c) :=
  ⟨by decide, by decide, by decide, by decide,
    (subdomain_apply_total (lit "example.com") Context.empty).2 (lit "a.example.com")
      (by decide) (by decide)⟩

/-! ## Lemmas on the writes to the fast map -/

theorem lastWrite_nil (K : GoString) : lastWrite K [] = none := rfl

theorem lastWrite_cons (K line : GoString) (rest : List GoString) :
    lastWrite K (line :: rest) =
      match lastWrite K rest with
      | some r => some r
      | none =>
        match fastRule line with
        | some (k, r) => if k = K then some r else none
        | none => none := by
  unfold lastWrite
  rw [List.filterMap_cons]
  cases hf : fastRule line with
  | none => simp only; cases (List.getLast? _) <;> rfl
  | some e =>
    obtain ⟨k, r⟩ := e
    simp only [List.filter_cons]
    by_cases hk : k = K
    · subst hk
      simp only [beq_self_eq_true, if_true]
      rw [List.getLast?_cons]
      cases hl : List.getLast? (List.filter (fun e => e.1 == k) (List.filterMap fastRule rest)) with
      | none => simp
      | some e' => simp
    · have hne : (k == K) = false := by simpa using hk
      simp only [hne, Bool.false_eq_true, if_false, hk]
      cases (List.getLast? _) <;> rfl

theorem storeRule_mapGet (g : GFWList) (rule : gfwListRule) (str : GoString) (fm : Bool)
    (K : GoString) :
    mapGet (storeRule g (rule, str, fm)).ruleMap K =
      if fm = true ∧ K = str then some rule else mapGet g.ruleMap K := by
  unfold storeRule
  cases fm with
  | false => simp
  | true => simp [mapGet_mapSet]

theorem parseLoop_lastWrite (K : GoString) (n : Nat) :
    ∀ (input : GoString) (g g' : GFWList), parseLoop n input g = .ok g' →
      mapGet g'.ruleMap K =
        match lastWrite K (readLines n input) with
        | some r => some r
        | none => mapGet g.ruleMap K := by
  induction n with
  | zero => intro input g g' h; simp [parseLoop] at h
  | succ n ih =>
    intro input g g' h
    unfold parseLoop at h
    unfold readLines
    cases hr : ReadLine input with
    | none => rw [hr] at h; simp only [Outcome.ok.injEq] at h; subst h; rfl
    | some p =>
      obtain ⟨line, rest⟩ := p
      rw [hr] at h
      simp only at h ⊢
      unfold parseLine at h
      rw [lastWrite_cons]
      cases hb : buildRule line with
      | none => rw [hb] at h; simp at h
      | some ob =>
        rw [hb] at h
        cases ob with
        | none =>
          rw [ih rest g g' h]
          simp only [fastRule, hb]
          cases hl : lastWrite K (readLines n rest) <;> rfl
        | some b =>
          obtain ⟨rule, str, fm⟩ := b
          rw [ih rest _ g' h, storeRule_mapGet]
          simp only [fastRule, hb]
          cases hl : lastWrite K (readLines n rest) with
          | some r => rfl
          | none =>
            cases fm with
            | false => simp
            | true =>
              by_cases hk : K = str
              · subst hk; simp
              · have hk' : ¬ str = K := fun e => hk e.symm
                simp [hk, hk']

/-! ## Lemmas on lines longer than the buffer -/

theorem indexByte_none (c : Nat) (s : GoString) (h : c ∉ s) : indexByte c s = none := by
  induction s with
  | nil => rfl
  | cons x xs ih =>
    simp only [List.mem_cons, not_or] at h
    unfold indexByte
    rw [if_neg (fun e => h.1 e.symm), ih h.2]
    rfl

theorem leadingSpace_zero (b : Nat) (t : GoString)
    (hb : b ∉ [0x09, 0x0A, 0x0B, 0x0C, 0x0D, 0x20, 0xC2, 0xE1, 0xE2, 0xE3]) :
    leadingSpace (b :: t) = 0 := by
  have hall : ∀ e ∈ spaceRunes,
      ∃ h ∈ [0x09, 0x0A, 0x0B, 0x0C, 0x0D, 0x20, 0xC2, 0xE1, 0xE2, 0xE3], e.head? = some h := by
    decide
  have hnone : spaceRunes.find? (fun e => HasPrefix (b :: t) e) = none := by
    rw [List.find?_eq_none]
    intro e he hp
    obtain ⟨h, hh, hhead⟩ := hall e he
    obtain ⟨u, hu⟩ := (hasPrefix_iff _ _).mp hp
    cases e with
    | nil => simp at hhead
    | cons x xs =>
      simp only [List.head?_cons, Option.some.injEq] at hhead
      simp only [List.cons_append, List.cons.injEq] at hu
      rw [hhead] at hu
      rw [← hu.1] at hb
      exact hb hh
  unfold leadingSpace
  rw [hnone]

theorem trailingSpace_zero (s : GoString) (b : Nat) (hl : s.getLast? = some b)
    (hb : b ∉ [0x09, 0x0A, 0x0B, 0x0C, 0x0D, 0x20, 0x85, 0xA0, 0x80, 0x81, 0x82, 0x83, 0x84,
      0x86, 0x87, 0x88, 0x89, 0x8A, 0xA8, 0xA9, 0xAF, 0x9F]) :
    trailingSpace s = 0 := by
  have hall : ∀ e ∈ spaceRunes,
      ∃ h ∈ [0x09, 0x0A, 0x0B, 0x0C, 0x0D, 0x20, 0x85, 0xA0, 0x80, 0x81, 0x82, 0x83, 0x84,
        0x86, 0x87, 0x88, 0x89, 0x8A, 0xA8, 0xA9, 0xAF, 0x9F], e.getLast? = some h := by
    decide
  have hnone : spaceRunes.find? (fun e => HasSuffix s e) = none := by
    rw [List.find?_eq_none]
    intro e he hp
    obtain ⟨h, hh, hlast⟩ := hall e he
    obtain ⟨u, hu⟩ := (hasSuffix_iff _ _).mp hp
    have hne : e ≠ [] := by intro h0; rw [h0] at hlast; simp at hlast
    have : s.getLast? = e.getLast? := by
      rw [← hu, List.getLast?_append_of_ne_nil _ hne]
    rw [hl, hlast] at this
    simp only [Option.some.injEq] at this
    rw [this] at hb
    exact hb hh
  unfold trailingSpace
  rw [hnone]

theorem trimSpace_id (s : GoString) (h1 : leadingSpace s = 0) (h2 : trailingSpace s = 0) :
    TrimSpace s = s := by
  have hl : ∀ n, trimLeft n s = s := by
    intro n; cases n with
    | zero => rfl
    | succ n => unfold trimLeft; rw [if_pos h1]
  have hr : ∀ n, trimRight n s = s := by
    intro n; cases n with
    | zero => rfl
    | succ n => unfold trimRight; rw [if_pos h2]
  unfold TrimSpace
  simp only [hl, hr]

theorem readLine_full (input : GoString) (h10 : 10 ∉ input.take defaultBufSize)
    (hlen : defaultBufSize ≤ input.length)
    (hcr : (input.take defaultBufSize).getLast? ≠ some 13) :
    ReadLine input = some (input.take defaultBufSize, input.drop defaultBufSize) := by
  have hne : input ≠ [] := by
    intro h; rw [h] at hlen; simp [defaultBufSize] at hlen
  unfold ReadLine
  rw [if_neg hne, indexByte_none 10 _ h10]
  simp only
  rw [if_pos hlen, if_neg hcr]

theorem long_line_split (k : Nat) :
    lit "!" ++ List.replicate (k + 1) 97 = (lit "!" ++ List.replicate k 97) ++ [97] ∧
      (lit "!" ++ List.replicate k 97).length = k + 1 := by
  constructor
  · rw [List.replicate_succ', List.append_assoc]
  · rw [List.length_append, List.length_replicate]
    show 1 + k = k + 1
    omega

theorem long_line_last (k : Nat) :
    (lit "!" ++ List.replicate (k + 1) 97).getLast? = some 97 := by
  rw [(long_line_split k).1, List.getLast?_concat]

theorem long_line_trim (k : Nat) :
    TrimSpace (lit "!" ++ List.replicate (k + 1) 97) = lit "!" ++ List.replicate (k + 1) 97 := by
  apply trimSpace_id
  · exact leadingSpace_zero 33 _ (by decide)
  · exact trailingSpace_zero _ 97 (long_line_last k) (by decide)

theorem long_line_comment (k : Nat) :
    buildRule (lit "!" ++ List.replicate (k + 1) 97) = some none ∧
      isCommentLine (lit "!" ++ List.replicate (k + 1) 97) = true := by
  have hp : HasPrefix (lit "!" ++ List.replicate (k + 1) 97) (lit "!") = true := by
    rw [hasPrefix_iff]
    exact List.prefix_append _ _
  constructor
  · unfold buildRule
    simp only [long_line_trim k, hp, Bool.true_or, if_true]
  · unfold isCommentLine
    simp only [long_line_trim k, hp, Bool.true_or, Bool.or_true]

theorem readLine_long_line (k : Nat) (hk : k + 1 = defaultBufSize - 1) :
    ReadLine (lit "!" ++ List.replicate (k + 2) 97) =
      some (lit "!" ++ List.replicate (k + 1) 97, [97]) := by
  obtain ⟨hsplit, hlen⟩ := long_line_split (k + 1)
  have hbuf : defaultBufSize = k + 1 + 1 := by
    unfold defaultBufSize at hk ⊢; omega
  have htake : (lit "!" ++ List.replicate (k + 2) 97).take defaultBufSize =
      lit "!" ++ List.replicate (k + 1) 97 := by
    rw [hsplit, hbuf, ← hlen, List.take_left']
    rfl
  have hdrop : (lit "!" ++ List.replicate (k + 2) 97).drop defaultBufSize = [97] := by
    rw [hsplit, hbuf, ← hlen, List.drop_left']
    rfl
  have h := readLine_full (lit "!" ++ List.replicate (k + 2) 97)
    (by
      rw [htake]
      intro hmem
      rcases List.mem_append.mp hmem with h | h
      · exact absurd h (by decide)
      · exact absurd (List.eq_of_mem_replicate h) (by decide))
    (by rw [hsplit, List.length_append, hlen, hbuf]; exact Nat.le_add_right _ _)
    (by rw [htake, long_line_last k]; decide)
  rw [h, htake, hdrop]

/-! ## Lemmas on `TrimSpace` and a carriage return at the end -/

theorem find_congr {α : Type} (p q : α → Bool) (l : List α) (h : ∀ e ∈ l, p e = q e) :
    l.find? p = l.find? q := by
  induction l with
  | nil => rfl
  | cons a l ih =>
    rw [List.find?_cons, List.find?_cons, h a (List.mem_cons_self _ _),
      ih (fun e he => h e (List.mem_cons_of_mem _ he))]

theorem hasPrefix_append_cr (t e : GoString) (ht : t ≠ []) (he : e ∈ spaceRunes) :
    HasPrefix (t ++ [13]) e = HasPrefix t e := by
  have hlast : ∀ e ∈ spaceRunes, e.getLast? = some 13 → e = [13] := by decide
  rw [Bool.eq_iff_iff, hasPrefix_iff, hasPrefix_iff, List.prefix_concat_iff]
  constructor
  · rintro (h | h)
    · have := hlast e he (by rw [h, List.getLast?_concat])
      rw [this] at h
      have hl := congrArg List.length h
      simp at hl
      exact absurd hl ht
    · exact h
  · exact Or.inr

theorem leadingSpace_append_cr (t : GoString) (ht : t ≠ []) :
    leadingSpace (t ++ [13]) = leadingSpace t := by
  unfold leadingSpace
  rw [find_congr _ _ spaceRunes (fun e he => hasPrefix_append_cr t e ht he)]

theorem leadingSpace_le (t : GoString) : leadingSpace t ≤ t.length := by
  unfold leadingSpace
  cases h : spaceRunes.find? (fun e => HasPrefix t e) with
  | none => exact Nat.zero_le _
  | some e =>
    have := List.find?_some h
    exact ((hasPrefix_iff t e).mp this).length_le

theorem trimLeft_succ (n : Nat) (s : GoString) :
    trimLeft (n + 1) s =
      if leadingSpace s = 0 then s else trimLeft n (s.drop (leadingSpace s)) := rfl

theorem trimRight_succ (n : Nat) (s : GoString) :
    trimRight (n + 1) s =
      if trailingSpace s = 0 then s else trimRight n (s.take (s.length - trailingSpace s)) :=
  rfl

theorem trimLeft_append_cr (n : Nat) : ∀ t : GoString, t.length ≤ n →
    trimLeft (n + 1) (t ++ [13]) =
      if trimLeft n t = [] then [] else trimLeft n t ++ [13] := by
  induction n with
  | zero =>
    intro t h
    have : t = [] := List.length_eq_zero.mp (Nat.le_zero.mp h)
    subst this
    decide
  | succ n ih =>
    intro t h
    by_cases ht : t = []
    · subst ht
      have h1 : leadingSpace ([] ++ [13]) = 1 := by decide
      have h2 : leadingSpace ([] : GoString) = 0 := by decide
      rw [trimLeft_succ, if_neg (by rw [h1]; decide), h1]
      rw [show List.drop 1 (([] : GoString) ++ [13]) = [] from rfl]
      rw [trimLeft_succ, if_pos h2]
      rfl
    · rw [trimLeft_succ, leadingSpace_append_cr t ht, trimLeft_succ n t]
      by_cases hk : leadingSpace t = 0
      · rw [if_pos hk, if_pos hk, if_neg ht]
      · rw [if_neg hk, if_neg hk, List.drop_append_of_le_length (leadingSpace_le t)]
        exact ih _ (by rw [List.length_drop]; omega)

theorem hasSuffix_concat_single (u : GoString) (b x : Nat) :
    HasSuffix (u ++ [b]) [x] = decide (x = b) := by
  unfold HasSuffix
  have : List.drop ((u ++ [b]).length - [x].length) (u ++ [b]) = [b] := by
    simp
  rw [this]
  by_cases h : x = b
  · subst h; simp
  · have h' : ¬ b = x := fun e => h e.symm
    simp [h, h']

theorem trailingSpace_append_cr (u : GoString) : trailingSpace (u ++ [13]) = 1 := by
  unfold trailingSpace spaceRunes
  simp only [List.find?_cons, hasSuffix_concat_single]
  rfl

theorem trimRight_append_cr (n : Nat) (u : GoString) :
    trimRight (n + 1) (u ++ [13]) = trimRight n u := by
  rw [trimRight_succ, trailingSpace_append_cr, if_neg (by decide)]
  congr 1
  simp

theorem trimSpace_append_cr (t : GoString) : TrimSpace (t ++ [13]) = TrimSpace t := by
  unfold TrimSpace
  simp only [List.length_append, List.length_singleton]
  rw [trimLeft_append_cr _ t (Nat.le_refl _)]
  by_cases h : trimLeft t.length t = []
  · rw [if_pos h, h]
  · rw [if_neg h, List.length_append, List.length_singleton, trimRight_append_cr]

theorem trimSpace_stripCR (line : GoString) : TrimSpace (stripCR line) = TrimSpace line := by
  unfold stripCR
  split
  · rename_i h
    have := List.dropLast_append_getLast? 13 (by rw [h]; exact rfl)
    conv_rhs => rw [← this]
    rw [trimSpace_append_cr]
  · rfl

theorem buildRule_stripCR (line : GoString) : buildRule (stripCR line) = buildRule line := by
  unfold buildRule
  rw [trimSpace_stripCR]

theorem parseLine_stripCR (line : GoString) (g : GFWList) :
    parseLine (stripCR line) g = parseLine line g := by
  unfold parseLine
  rw [buildRule_stripCR]


/-! ## Lemmas on texts whose lines fit the buffer -/

theorem indexByte_append_sep (c : Nat) (l rest : GoString) (h : c ∉ l) :
    indexByte c (l ++ c :: rest) = some l.length := by
  induction l with
  | nil => simp [indexByte]
  | cons x xs ih =>
    simp only [List.mem_cons, not_or] at h
    rw [List.cons_append, indexByte, if_neg (fun e => h.1 e.symm), ih h.2]
    rfl

theorem indexByte_take_sep (l rest : GoString) (h : 10 ∉ l)
    (hlen : l.length < defaultBufSize) :
    indexByte 10 ((l ++ 10 :: rest).take defaultBufSize) = some l.length := by
  have : (l ++ 10 :: rest).take defaultBufSize =
      l ++ 10 :: rest.take (defaultBufSize - l.length - 1) := by
    rw [List.take_append_eq_append_take, List.take_of_length_le (Nat.le_of_lt hlen)]
    congr 1
    have : defaultBufSize - l.length = (defaultBufSize - l.length - 1) + 1 := by omega
    rw [this, List.take_succ_cons]
    simp
  rw [this, indexByte_append_sep 10 l _ h]

theorem readLine_terminated (l rest : GoString) (h : 10 ∉ l)
    (hlen : l.length < defaultBufSize) :
    ReadLine (l ++ 10 :: rest) = some (stripCR l, rest) := by
  unfold ReadLine
  rw [if_neg (by simp), indexByte_take_sep l rest h hlen]
  simp only [stripCR, List.take_left', List.drop_left', List.take_left, List.drop_left,
    List.drop_append_of_le_length (Nat.le_refl _)]
  simp

theorem readLine_last (l : GoString) (hne : l ≠ []) (h : 10 ∉ l)
    (hlen : l.length < defaultBufSize) : ReadLine l = some (l, []) := by
  unfold ReadLine
  rw [if_neg hne, indexByte_none 10 _ (fun hm => h (List.mem_of_mem_take hm))]
  simp only
  rw [if_neg (by omega)]

theorem runLines_readLines (pieces : List GoString) :
    pieces ≠ [] → (∀ l ∈ pieces, 10 ∉ l ∧ l.length < defaultBufSize) →
      ∀ (n : Nat) (g : GFWList), (joinLabels 10 pieces).length < n →
        runLines (readLines n (joinLabels 10 pieces)) g = runLines pieces g := by
  induction pieces with
  | nil => intro h; exact absurd rfl h
  | cons p ps ih =>
    intro _ hall n g hn
    cases n with
    | zero => omega
    | succ n =>
      cases ps with
      | nil =>
        simp only [joinLabels] at hn ⊢
        by_cases hp : p = []
        · subst hp
          have : parseLine [] g = some g := by
            unfold parseLine
            rw [show buildRule [] = some none from by decide]
          simp [readLines, show ReadLine [] = none from by decide, runLines, this]
        · have hr := readLine_last p hp (hall p (List.mem_cons_self _ _)).1
            (hall p (List.mem_cons_self _ _)).2
          cases n with
          | zero =>
            have := List.length_pos.mpr hp
            omega
          | succ n =>
            simp [readLines, hr, show ReadLine [] = none from by decide]
      | cons q qs =>
        simp only [joinLabels] at hn ⊢
        have hr := readLine_terminated p (joinLabels 10 (q :: qs))
          (hall p (List.mem_cons_self _ _)).1 (hall p (List.mem_cons_self _ _)).2
        rw [readLines, hr]
        simp only [runLines, parseLine_stripCR]
        cases parseLine p g with
        | none => rfl
        | some g1 =>
          simp only
          refine ih (by simp) (fun l hl => hall l (List.mem_cons_of_mem _ hl)) n g1 ?_
          rw [List.length_append, List.length_cons] at hn
          omega

theorem parseLoop_runLines (n : Nat) : ∀ (input : GoString) (g : GFWList),
    input.length < n → parseLoop n input g = outcomeOf (runLines (readLines n input) g) := by
  induction n with
  | zero => intro input g h; omega
  | succ n ih =>
    intro input g h
    unfold parseLoop readLines
    cases hr : ReadLine input with
    | none => rfl
    | some p =>
      obtain ⟨line, rest⟩ := p
      have := readLine_lt input line rest hr
      simp only [runLines]
      cases parseLine line g with
      | none => rfl
      | some g1 => exact ih rest g1 (by omega)

/-- `Parse` runs the body of its loop on the lines it reads. -/
theorem parse_runLines (rules : GoString) :
    Parse rules = outcomeOf (runLines (linesOf rules) ⟨[], []⟩) :=
  parseLoop_runLines _ rules _ (Nat.lt_succ_self _)

theorem isCommentLine_iff (line : GoString) :
    isCommentLine line = true ↔ buildRule line = some none := by
  unfold isCommentLine buildRule
  simp only
  constructor
  · intro h
    rw [if_pos]
    simp only [Bool.or_eq_true] at h ⊢
    tauto
  · intro h
    by_cases hc : (HasPrefix (TrimSpace line) (lit "!") || (TrimSpace line).length == 0 ||
        HasPrefix (TrimSpace line) (lit "[")) = true
    · simp only [Bool.or_eq_true] at hc ⊢
      tauto
    · rw [if_neg hc] at h
      split at h
      · simp at h
      · split at h <;> simp at h

theorem runLines_skip_comments (ls : List GoString) : ∀ g : GFWList,
    runLines (ls.filter (fun l => !isCommentLine l)) g = runLines ls g := by
  induction ls with
  | nil => intro g; rfl
  | cons l ls ih =>
    intro g
    by_cases hc : isCommentLine l = true
    · have hp : parseLine l g = some g := by
        unfold parseLine; rw [(isCommentLine_iff l).mp hc]
      simp only [List.filter_cons, hc, Bool.not_true, Bool.false_eq_true, if_false, runLines,
        hp, ih]
    · simp only [List.filter_cons, hc, Bool.not_false, if_true, runLines]
      cases parseLine l g with
      | none => rfl
      | some g1 => exact ih g1

/-- When every line of the rule text fits the buffer of the reader, `Parse` runs the body
of its loop on the lines of the text, the pieces between the line feeds. -/
theorem parse_short_lines (rules : GoString)
    (h : ∀ l ∈ Split 10 rules, l.length < defaultBufSize) :
    Parse rules = outcomeOf (runLines (Split 10 rules) ⟨[], []⟩) := by
  rw [parse_runLines]
  unfold linesOf
  have := runLines_readLines (Split 10 rules) (split_ne_nil 10 rules)
    (fun l hl => ⟨split_mem_no_sep 10 rules l hl, h l hl⟩) (rules.length + 1) ⟨[], []⟩
  rw [join_split] at this
  rw [this (Nat.lt_succ_self _)]

/-- Comment lines contribute no rule when the lines fit the buffer: two rule texts whose
lines are all shorter than the buffer and whose lines other than comment lines are the
same, in the same order, parse to the same outcome. -/
theorem parse_comment_lines (t₁ t₂ : GoString)
    (h₁ : ∀ l ∈ Split 10 t₁, l.length < defaultBufSize)
    (h₂ : ∀ l ∈ Split 10 t₂, l.length < defaultBufSize)
    (h : (Split 10 t₁).filter (fun l => !isCommentLine l) =
      (Split 10 t₂).filter (fun l => !isCommentLine l)) :
    Parse t₁ = Parse t₂ := by
  rw [parse_short_lines t₁ h₁, parse_short_lines t₂ h₂,
    ← runLines_skip_comments (Split 10 t₁), ← runLines_skip_comments (Split 10 t₂), h]

/-! ## Lemmas on the lines read and the lines of the text -/

theorem filterMap_readLines {β : Type} (f : GoString → Option β)
    (hcr : ∀ l, f (stripCR l) = f l) (hnil : f [] = none) (pieces : List GoString) :
    pieces ≠ [] → (∀ l ∈ pieces, 10 ∉ l ∧ l.length < defaultBufSize) →
      ∀ n : Nat, (joinLabels 10 pieces).length < n →
        (readLines n (joinLabels 10 pieces)).filterMap f = pieces.filterMap f := by
  induction pieces with
  | nil => intro h; exact absurd rfl h
  | cons p ps ih =>
    intro _ hall n hn
    cases n with
    | zero => omega
    | succ n =>
      cases ps with
      | nil =>
        simp only [joinLabels] at hn ⊢
        by_cases hp : p = []
        · subst hp
          simp [readLines, show ReadLine [] = none from by decide, hnil]
        · have hr := readLine_last p hp (hall p (List.mem_cons_self _ _)).1
            (hall p (List.mem_cons_self _ _)).2
          cases n with
          | zero =>
            have := List.length_pos.mpr hp
            omega
          | succ n =>
            simp [readLines, hr, show ReadLine [] = none from by decide]
      | cons q qs =>
        simp only [joinLabels] at hn ⊢
        have hr := readLine_terminated p (joinLabels 10 (q :: qs))
          (hall p (List.mem_cons_self _ _)).1 (hall p (List.mem_cons_self _ _)).2
        have := ih (by simp) (fun l hl => hall l (List.mem_cons_of_mem _ hl)) n (by
          rw [List.length_append, List.length_cons] at hn
          omega)
        rw [readLines, hr]
        simp only
        rw [List.filterMap_cons, List.filterMap_cons (a := p), hcr, this]

/-- When every line of the rule text fits the buffer of the reader, the lines read and the
lines of the text, the pieces between the line feeds, yield the same rules in the same
order. -/
theorem linesOf_short_lines {β : Type} (f : GoString → Option β)
    (hcr : ∀ l, f (stripCR l) = f l) (hnil : f [] = none) (rules : GoString)
    (h : ∀ l ∈ Split 10 rules, l.length < defaultBufSize) :
    (linesOf rules).filterMap f = (Split 10 rules).filterMap f := by
  unfold linesOf
  have := filterMap_readLines f hcr hnil (Split 10 rules) (split_ne_nil 10 rules)
    (fun l hl => ⟨split_mem_no_sep 10 rules l hl, h l hl⟩) (rules.length + 1)
  rw [join_split] at this
  exact this (Nat.lt_succ_self _)

theorem fastRule_stripCR (l : GoString) : fastRule (stripCR l) = fastRule l := by
  unfold fastRule
  rw [buildRule_stripCR]

theorem slowRule_stripCR (l : GoString) : slowRule (stripCR l) = slowRule l := by
  unfold slowRule
  rw [buildRule_stripCR]


/-! ## C16: the last write to the fast map wins -/

/-- What holds of the code for every rule text and every key K: the entry stored under K
after Parse is the rule built from the last of the lines, as Parse reads them, that write
to the fast map under K (no entry when no line does).  These are the lines of the text,
the pieces between the line feeds, only when each of them fits the buffer of the reader. -/
theorem fast_map_last_write (rules : GoString) (g : GFWList) (K : GoString)
    (hp : Parse rules = .ok g) :
    mapGet g.ruleMap K = lastWrite K (linesOf rules) ∧
      ((∀ l ∈ Split 10 rules, l.length < defaultBufSize) →
        mapGet g.ruleMap K = lastWrite K (Split 10 rules)) := by
  have h1 : mapGet g.ruleMap K = lastWrite K (linesOf rules) := by
    have := parseLoop_lastWrite K _ rules ⟨[], []⟩ g hp
    rw [this]
    unfold linesOf
    cases lastWrite K (readLines (rules.length + 1) rules) <;> rfl
  refine ⟨h1, fun h => ?_⟩
  rw [h1]
  unfold lastWrite
  rw [linesOf_short_lines fastRule fastRule_stripCR (by decide) rules h]

/-- The two rule texts named with the last-write rule: `||a.com` followed by `@@||a.com`
stores the whitelist rule and a.com is not blocked; the reverse order stores the plain
rule and a.com is blocked. -/
theorem fast_map_last_write_witness :
    Parse (lit "||a.com\n@@||a.com") =
        .ok ⟨[(lit "a.com", .whiteListRule (.hostWildcardRule (lit "a.com")))], []⟩ ∧
      IsBlockedByGFW noRegexp
        ⟨[(lit "a.com", .whiteListRule (.hostWildcardRule (lit "a.com")))], []⟩
        (lit "a.com") = false ∧
      Parse (lit "@@||a.com\n||a.com") =
        .ok ⟨[(lit "a.com", .hostWildcardRule (lit "a.com"))], []⟩ ∧
      IsBlockedByGFW noRegexp ⟨[(lit "a.com", .hostWildcardRule (lit "a.com"))], []⟩
        (lit "a.com") = true ∧
      lastWrite (lit "a.com") (linesOf (lit "||a.com\n@@||a.com")) =
        some (.whiteListRule (.hostWildcardRule (lit "a.com"))) ∧
      mapGet [(lit "a.com", gfwListRule.whiteListRule (.hostWildcardRule (lit "a.com")))]
        (lit "a.com") = lastWrite (lit "a.com") (linesOf (lit "||a.com\n@@||a.com")) :=
  ⟨by decide, by decide, by decide, by decide, by decide,
    (fast_map_last_write (lit "||a.com\n@@||a.com")
      ⟨[(lit "a.com", .whiteListRule (.hostWildcardRule (lit "a.com")))], []⟩ (lit "a.com")
      (by decide)).1⟩

/-- C16, the failing input: in the rule text of the three lines `||a`, `@@||a` and
`!aaa...a`, `!` followed by 4096 times `a`, two fast-path lines yield the key `a` and the
last of them is the whitelist line `@@||a`; the third line is a comment and yields no
rule.  The comment line is longer than the 4096-byte buffer of the reader, `ReadLine`
returns it in two pieces and `Parse` stores the second piece, `a`, under the key `a`:
the entry after Parse is the plain rule `a`, not the rule of the last line that yields the
key, and `a` is blocked, although without the comment line it is not. -/
theorem parse_long_line_overwrites :
    Split 10 (lit "||a\n@@||a\n" ++ (lit "!" ++ List.replicate 4096 97)) =
        [lit "||a", lit "@@||a", lit "!" ++ List.replicate 4096 97] ∧
      fastRule (lit "||a") = some (lit "a", .hostWildcardRule (lit "a")) ∧
      fastRule (lit "@@||a") =
        some (lit "a", .whiteListRule (.hostWildcardRule (lit "a"))) ∧
      fastRule (lit "!" ++ List.replicate 4096 97) = none ∧
      lastWrite (lit "a") (Split 10 (lit "||a\n@@||a\n" ++ (lit "!" ++ List.replicate 4096 97))) =
        some (.whiteListRule (.hostWildcardRule (lit "a"))) ∧
      linesOf (lit "||a\n@@||a\n" ++ (lit "!" ++ List.replicate 4096 97)) =
        [lit "||a", lit "@@||a", lit "!" ++ List.replicate 4095 97, lit "a"] ∧
      Parse (lit "||a\n@@||a\n" ++ (lit "!" ++ List.replicate 4096 97)) =
        .ok ⟨[(lit "a", .hostWildcardRule (lit "a"))], []⟩ ∧
      mapGet [(lit "a", gfwListRule.hostWildcardRule (lit "a"))] (lit "a") =
        some (.hostWildcardRule (lit "a")) ∧
      IsBlockedByGFW noRegexp ⟨[(lit "a", .hostWildcardRule (lit "a"))], []⟩ (lit "a") = true ∧
      Parse (lit "||a\n@@||a") =
        .ok ⟨[(lit "a", .whiteListRule (.hostWildcardRule (lit "a")))], []⟩ ∧
      IsBlockedByGFW noRegexp
        ⟨[(lit "a", .whiteListRule (.hostWildcardRule (lit "a")))], []⟩ (lit "a") = false := by
  have htext : lit "||a\n@@||a\n" ++ (lit "!" ++ List.replicate 4096 97) =
      lit "||a" ++ 10 :: (lit "@@||a" ++ 10 :: (lit "!" ++ List.replicate 4096 97)) := rfl
  have hno : (10 : Nat) ∉ lit "!" ++ List.replicate 4096 97 := by
    intro hmem
    rcases List.mem_append.mp hmem with h | h
    · exact absurd h (by decide)
    · exact absurd (List.eq_of_mem_replicate h) (by decide)
  have hsplit : Split 10 (lit "||a\n@@||a\n" ++ (lit "!" ++ List.replicate 4096 97)) =
      [lit "||a", lit "@@||a", lit "!" ++ List.replicate 4096 97] := by
    rw [htext, split_append_sep 10 _ _ (by decide), split_append_sep 10 _ _ (by decide),
      split_no_sep 10 _ hno]
  have hf1 : fastRule (lit "||a") = some (lit "a", .hostWildcardRule (lit "a")) := by decide
  have hf2 : fastRule (lit "@@||a") =
      some (lit "a", .whiteListRule (.hostWildcardRule (lit "a"))) := by decide
  have hf3 : fastRule (lit "!" ++ List.replicate 4096 97) = none := by
    unfold fastRule
    rw [(long_line_comment 4095).1]
  have hf4 : fastRule (lit "!" ++ List.replicate 4095 97) = none := by
    unfold fastRule
    rw [(long_line_comment 4094).1]
  have hlast : lastWrite (lit "a")
      (Split 10 (lit "||a\n@@||a\n" ++ (lit "!" ++ List.replicate 4096 97))) =
      some (.whiteListRule (.hostWildcardRule (lit "a"))) := by
    rw [hsplit]
    unfold lastWrite
    rw [List.filterMap_cons, hf1, List.filterMap_cons, hf2, List.filterMap_cons, hf3]
    decide
  have hlen : (lit "||a\n@@||a\n" ++ (lit "!" ++ List.replicate 4096 97)).length + 1 =
      4103 + 1 + 1 + 1 + 1 + 1 := by
    rw [List.length_append, List.length_append, List.length_replicate]
    rfl
  have h0 : ReadLine (lit "||a\n@@||a\n" ++ (lit "!" ++ List.replicate 4096 97)) =
      some (lit "||a", lit "@@||a" ++ 10 :: (lit "!" ++ List.replicate 4096 97)) := by
    rw [htext, readLine_terminated _ _ (by decide) (by decide)]
    rfl
  have h0' : ReadLine (lit "@@||a" ++ 10 :: (lit "!" ++ List.replicate 4096 97)) =
      some (lit "@@||a", lit "!" ++ List.replicate 4096 97) := by
    rw [readLine_terminated _ _ (by decide) (by decide)]
    rfl
  have h1 : ReadLine (lit "!" ++ List.replicate 4096 97) =
      some (lit "!" ++ List.replicate 4095 97, [97]) := readLine_long_line 4094 rfl
  have h2 : ReadLine [97] = some ([97], []) := by decide
  have h3 : ReadLine [] = none := by decide
  have hlines : linesOf (lit "||a\n@@||a\n" ++ (lit "!" ++ List.replicate 4096 97)) =
      [lit "||a", lit "@@||a", lit "!" ++ List.replicate 4095 97, lit "a"] := by
    unfold linesOf
    rw [hlen, readLines, h0]
    simp only
    rw [readLines, h0']
    simp only
    rw [readLines, h1]
    simp only
    rw [readLines, h2]
    simp only
    rw [readLines, h3]
    rfl
  have hc : buildRule (lit "!" ++ List.replicate 4095 97) = some none :=
    (long_line_comment 4094).1
  refine ⟨hsplit, hf1, hf2, hf3, hlast, hlines, ?_, by decide, by decide, by decide,
    by decide⟩
  rw [parse_runLines, hlines, runLines,
    show parseLine (lit "||a") ⟨[], []⟩ =
      some ⟨[(lit "a", .hostWildcardRule (lit "a"))], []⟩ from by decide]
  simp only
  rw [runLines,
    show parseLine (lit "@@||a") ⟨[(lit "a", .hostWildcardRule (lit "a"))], []⟩ =
      some ⟨[(lit "a", .whiteListRule (.hostWildcardRule (lit "a")))], []⟩ from by decide]
  simp only
  rw [runLines, parseLine, hc]
  simp only
  rw [runLines,
    show parseLine (lit "a") ⟨[(lit "a", .whiteListRule (.hostWildcardRule (lit "a")))], []⟩ =
      some ⟨[(lit "a", .hostWildcardRule (lit "a"))], []⟩ from by decide]
  simp only
  rfl

/-! ## C17: comment lines -/

/-- C17, the failing input: the one comment line `!aaa...a`, `!` followed by 4096 times
`a`, is longer than the 4096-byte buffer of the reader; `ReadLine` returns it in two
pieces, `Parse` skips the first and stores the second, `a`, as a rule, although the empty
rule text, the same text without this comment line, parses to no rule. -/
theorem parse_long_comment_line :
    isCommentLine (lit "!" ++ List.replicate 4096 97) = true ∧
      linesOf (lit "!" ++ List.replicate 4096 97) =
        [lit "!" ++ List.replicate 4095 97, lit "a"] ∧
      Parse (lit "!" ++ List.replicate 4096 97) =
        .ok ⟨[(lit "a", .hostWildcardRule (lit "a"))], []⟩ ∧
      Parse (lit "") = .ok ⟨[], []⟩ ∧
      IsBlockedByGFW noRegexp ⟨[(lit "a", .hostWildcardRule (lit "a"))], []⟩ (lit "a") = true ∧
      IsBlockedByGFW noRegexp ⟨[], []⟩ (lit "a") = false := by
  have hlen : (lit "!" ++ List.replicate 4096 97).length + 1 = 4095 + 1 + 1 + 1 := by
    rw [List.length_append, List.length_replicate]
    rfl
  have h1 : ReadLine (lit "!" ++ List.replicate 4096 97) =
      some (lit "!" ++ List.replicate 4095 97, [97]) := readLine_long_line 4094 rfl
  have h2 : ReadLine [97] = some ([97], []) := by decide
  have h3 : ReadLine [] = none := by decide
  have hc : buildRule (lit "!" ++ List.replicate 4095 97) = some none :=
    (long_line_comment 4094).1
  refine ⟨(long_line_comment 4095).2, ?_, ?_, by decide, by decide, by decide⟩
  · unfold linesOf
    rw [hlen, readLines, h1]
    simp only
    rw [readLines, h2]
    simp only
    rw [readLines, h3]
    rfl
  · unfold Parse
    rw [hlen, parseLoop, h1]
    simp only
    rw [parseLine, hc]
    simp only
    rw [parseLoop, h2]
    simp only
    rw [show parseLine [97] ⟨[], []⟩ = some ⟨[(lit "a", .hostWildcardRule (lit "a"))], []⟩
      from by decide]
    simp only
    rw [parseLoop, h3]

/-! ## Lemmas on the entry the fast path finds -/

theorem splitHostPort_host_sub (s host port : GoString)
    (h : SplitHostPort s = some (host, port)) : host <:+: s := by
  unfold SplitHostPort at h
  cases hl : lastIndexByte 58 s with
  | none => rw [hl] at h; simp at h
  | some i =>
    rw [hl] at h
    simp only at h
    split at h
    · cases he : indexByte 93 s with
      | none => rw [he] at h; simp at h
      | some e =>
        rw [he] at h
        simp only at h
        split at h
        · simp at h
        · split at h
          · split at h
            · simp at h
            · split at h
              · simp at h
              · simp only [Option.some.injEq, Prod.mk.injEq] at h
                rw [← h.1]
                exact (List.drop_suffix 1 _).isInfix.trans (List.take_prefix e s).isInfix
          · simp at h
    · split at h
      · simp at h
      · split at h
        · simp at h
        · split at h
          · simp at h
          · simp only [Option.some.injEq, Prod.mk.injEq] at h
            rw [← h.1]
            exact (List.take_prefix i s).isInfix

theorem stripPort_sub (D : GoString) : stripPort D <:+: D := by
  unfold stripPort
  split
  · cases hs : SplitHostPort D with
    | none => exact List.nil_infix
    | some p =>
      obtain ⟨host, port⟩ := p
      exact splitHostPort_host_sub D host port hs
  · exact List.infix_refl D

theorem entryFor_key (m : RuleMap) (d : GoString) (r : gfwListRule)
    (h : entryFor m d (labelRoot d) = some r) :
    ∃ K, mapGet m K = some r ∧ (K = d ∨ K <:+ d) := by
  unfold entryFor at h
  cases hd : mapGet m d with
  | some r' =>
    rw [hd] at h
    simp only [Option.some.injEq] at h
    subst h
    exact ⟨d, hd, Or.inl rfl⟩
  | none =>
    rw [hd] at h
    exact ⟨labelRoot d, h, Or.inr (labelRoot_suffix d)⟩

theorem fast_found (re : GoString → GoString → Bool) (g : GFWList)
    (hg : FastInv g.ruleMap) (D : GoString) (hp : (FastMatchDomain re g D).2 = true) :
    ∃ K r, mapGet g.ruleMap K = some r ∧
      entryFor g.ruleMap (stripPort D) (rootDomain D) = some r ∧
      (K = stripPort D ∨ K <:+ stripPort D) ∧ K <:+: D ∧
      r.matchDomain re (stripPort D) = true ∧ r.matchDomain re D = true ∧
      ((FastMatchDomain re g D).1 = true ↔ r.isWhiteList = false) := by
  rw [fastMatch_eq] at hp
  cases he : entryFor g.ruleMap (stripPort D) (rootDomain D) with
  | none => rw [he] at hp; simp at hp
  | some r =>
    obtain ⟨K, hK, hsuf⟩ := entryFor_key g.ruleMap (stripPort D) r he
    have hm := entry_matches re g.ruleMap hg (stripPort D) r he
    have hin : K <:+: D := by
      rcases hsuf with rfl | hs
      · exact stripPort_sub D
      · exact hs.isInfix.trans (stripPort_sub D)
    have hmD : r.matchDomain re D = true := by
      have hc : Contains D K = true := (contains_iff D K).mpr hin
      rcases hg K r hK with rfl | rfl <;> simp [gfwListRule.matchDomain, hc]
    refine ⟨K, r, hK, rfl, hsuf, hin, hm, hmD, ?_⟩
    rw [fastMatch_eq, he]
    cases hw : r.isWhiteList <;> simp [hm, hw]

/-! ## C20: the entries of the fast map -/

/-- C20, counterexample: with the rule `||a.com` the fast path reports a rule for the
query `a.com:80`; the rule is found under the key `a.com`, the only key of the map, which
is neither the query nor a suffix of it. -/
theorem fast_key_not_suffix_of_raw_query :
    ∃ g, Parse (lit "||a.com") = .ok g ∧
      (FastMatchDomain noRegexp g (lit "a.com:80")).2 = true ∧
      (∀ K, isKey g.ruleMap K → K = lit "a.com") ∧
      ¬ (lit "a.com" = lit "a.com:80" ∨ lit "a.com" <:+ lit "a.com:80") := by
  refine ⟨⟨[(lit "a.com", .hostWildcardRule (lit "a.com"))], []⟩, by decide, by decide,
    ?_, ?_⟩
  · intro K hK
    unfold isKey mapGet at hK
    by_cases h : K = lit "a.com"
    · exact h
    · have hne : (K == lit "a.com") = false := by simpa using h
      simp [List.lookup_cons, hne] at hK
  · rw [← hasSuffix_iff]
    decide

/-- C20, amended: for every rule text, every entry of the fast map built by Parse under
key K is a host-wildcard rule whose pattern is exactly K, optionally wrapped as a
whitelist rule.  Consequently, for every domain D on which FastMatchDomain reports
present = true, writing D' for D with its `:port` suffix stripped (D' is D when D contains
no ':'): the found rule is stored under a key that is D' or a suffix of D', hence a
substring of D; its match is true on D' and on D; and the returned verdict is true iff
the found rule is not a whitelist rule. -/
theorem fast_entry_invariant (re : GoString → GoString → Bool) (rules : GoString)
    (g : GFWList) (hp : Parse rules = .ok g) :
    (∀ K r, mapGet g.ruleMap K = some r →
        r = .hostWildcardRule K ∨ r = .whiteListRule (.hostWildcardRule K)) ∧
      ∀ D, (FastMatchDomain re g D).2 = true →
        ∃ K r, mapGet g.ruleMap K = some r ∧
          entryFor g.ruleMap (stripPort D) (rootDomain D) = some r ∧
          (K = stripPort D ∨ K <:+ stripPort D) ∧ K <:+: D ∧
          (Contains D (lit ":") = false → K = D ∨ K <:+ D) ∧
          r.matchDomain re (stripPort D) = true ∧ r.matchDomain re D = true ∧
          ((FastMatchDomain re g D).1 = true ↔ r.isWhiteList = false) := by
  have hg := parse_fastInv rules g hp
  refine ⟨hg, ?_⟩
  intro D hD
  obtain ⟨K, r, h1, h2, h3, h4, h5, h6, h7⟩ := fast_found re g hg D hD
  refine ⟨K, r, h1, h2, h3, h4, ?_, h5, h6, h7⟩
  intro hc
  have hno : 58 ∉ D := by
    rw [← contains_colon_iff, hc]; exact Bool.false_ne_true
  rwa [stripPort_of_no_colon D hno] at h3

/-- C20, witness: the rules `||google.com` and `@@||maps.google.com`: for www.google.com
the rule found is the one under the suffix google.com, and the verdict is true; for
maps.google.com the rule found is the whitelist rule under the domain itself, and the
verdict is false. -/
theorem fast_entry_invariant_witness :
    Parse (lit "||google.com\n@@||maps.google.com") =
        .ok ⟨[(lit "maps.google.com", .whiteListRule (.hostWildcardRule (lit "maps.google.com"))),
          (lit "google.com", .hostWildcardRule (lit "google.com"))], []⟩ ∧
      FastMatchDomain noRegexp
        ⟨[(lit "maps.google.com", .whiteListRule (.hostWildcardRule (lit "maps.google.com"))),
          (lit "google.com", .hostWildcardRule (lit "google.com"))], []⟩
        (lit "www.google.com") = (true, true) ∧
      FastMatchDomain noRegexp
        ⟨[(lit "maps.google.com", .whiteListRule (.hostWildcardRule (lit "maps.google.com"))),
          (lit "google.com", .hostWildcardRule (lit "google.com"))], []⟩
        (lit "maps.google.com") = (false, true) ∧
      ∃ K r, mapGet [(lit "maps.google.com",
            gfwListRule.whiteListRule (.hostWildcardRule (lit "maps.google.com"))),
          (lit "google.com", .hostWildcardRule (lit "google.com"))] K = some r ∧
        (K = lit "www.google.com" ∨ K <:+ lit "www.google.com") ∧
        r.matchDomain noRegexp (lit "www.google.com") = true := by
  refine ⟨by decide, by decide, by decide, ?_⟩
  obtain ⟨K, r, h1, _, _, _, h5, _, h7, _⟩ :=
    (fast_entry_invariant noRegexp (lit "||google.com\n@@||maps.google.com")
      ⟨[(lit "maps.google.com", .whiteListRule (.hostWildcardRule (lit "maps.google.com"))),
        (lit "google.com", .hostWildcardRule (lit "google.com"))], []⟩ (by decide)).2
      (lit "www.google.com") (by decide)
  exact ⟨K, r, h1, h5 (by decide), h7⟩

end V2Ray
